import Mathlib

/-!
Verification development for the Yocto/Image procedural image synthesis engine
(`src/yocto/yocto_image.h`).  Machine floats are embedded as exact rationals
(`ℚ`), bytes as `Fin 256`, and image buffers as row-major `List`s, following
the source's data model.  Functions whose bodies appear inline in the header
(`float_to_byte`, `byte_to_float`, `luminance`) are translated directly from
the source; the remaining operations of the engine (separable resampler,
coherent noise, pattern and sun-sky generators) are declared in the header but
their bodies are not part of the sources, so they are modelled from the
specification, as indicated in their doc comments.
-/

namespace ygl

/-- Low-dynamic-range pixel: RGBA bytes (source type `vec4b`). -/
structure vec4b where
  x : Fin 256
  y : Fin 256
  z : Fin 256
  w : Fin 256
deriving DecidableEq, Repr

/-- High-dynamic-range pixel: RGBA floats (source type `vec4f`), floats
embedded as rationals. -/
structure vec4f where
  x : ℚ
  y : ℚ
  z : ℚ
  w : ℚ
deriving DecidableEq, Repr

/-- Three-channel float pixel (source type `vec3f`). -/
structure vec3f where
  x : ℚ
  y : ℚ
  z : ℚ
deriving DecidableEq, Repr

/-- Modelled from the spec: `clamp` comes from `yocto_math.h`, which is not
among the sources; it is the standard min/max clamp used by `float_to_byte`
(`clamp(x, lo, hi) = min(max(x, lo), hi)`). -/
def clamp (x lo hi : ℤ) : ℤ := min (max x lo) hi

/-- Truncation toward zero of a rational: the in-range behavior of a C
float-to-int conversion. -/
def int_trunc (q : ℚ) : ℤ := if q < 0 then -⌊-q⌋ else ⌊q⌋

/-- C-style cast `int(q)` of a float value to a 32-bit `int` (source line 74
casts `a.x * 256`). When the truncated value fits in `[-2^31, 2^31)` this is
truncation toward zero; outside that range the conversion is undefined
behavior in C++, and the x86 `cvttss2si` instruction compilers emit returns
`INT_MIN = -2^31`, which is the overflow semantics modelled here. -/
def int_cast32 (q : ℚ) : ℤ :=
  if int_trunc q < -(2 ^ 31) ∨ 2 ^ 31 ≤ int_trunc q then -(2 ^ 31) else int_trunc q

/-- Bundle an integer already clamped to `[0, 255]` as a byte. -/
def toByte (i : ℤ) : Fin 256 :=
  ⟨(clamp i 0 255).toNat, by unfold clamp; omega⟩

/-- One component of `float_to_byte` (source line 74:
`(byte)clamp(int(a.x * 256), 0, 255)`, with `int(...)` the 32-bit
conversion `int_cast32`). -/
def byte_of (v : ℚ) : Fin 256 := toByte (int_cast32 (v * 256))

/-- Element-wise float to byte conversion (source lines 73-78). -/
def float_to_byte (a : vec4f) : vec4b :=
  ⟨byte_of a.x, byte_of a.y, byte_of a.z, byte_of a.w⟩

/-- Element-wise byte to float conversion (source lines 79-81:
`{a.x / 255.0f, ...}`). -/
def byte_to_float (a : vec4b) : vec4f :=
  ⟨(a.x : ℚ) / 255, (a.y : ℚ) / 255, (a.z : ℚ) / 255, (a.w : ℚ) / 255⟩

/-- Approximate luminance estimate (source line 93:
`(a.x + a.y + a.z) / 3`). -/
def luminance (a : vec3f) : ℚ := (a.x + a.y + a.z) / 3

/-- Linear interpolation between two scalars. -/
def lerp (a b t : ℚ) : ℚ := a + t * (b - a)

/-- Modelled from the spec: the smootherstep interpolation curve
`6 t^5 - 15 t^4 + 10 t^3` of the Coherent Noise Core (spec 4.4). -/
def smootherstep (t : ℚ) : ℚ := t * t * t * (t * (t * 6 - 15) + 10)

/-- Modelled from the spec: the deterministic lattice hash of the Coherent
Noise Core (spec 4.4) - a fixed hash of the integer lattice point into a
noise value in `[-1, 1]`; with `wrap` set, lattice coordinates are wrapped
modulo the period before hashing.  The concrete mixing constants stand in
for the fixed internal permutation table, which is not in the sources. -/
def lattice_hash (wrap : Bool) (period : ℤ) (x y z : ℤ) : ℚ :=
  ((((if wrap then x % period else x) * 374761393 +
      (if wrap then y % period else y) * 668265263 +
      (if wrap then z % period else z) * 1274126177) % 256 : ℤ) : ℚ) / 255 * 2 - 1

/-- Modelled from the spec: the coherent noise function
`noise(x, y, z, wrap) -> float in [-1, 1]` (spec 4.4): hash-based lattice
noise, trilinearly interpolated between the eight surrounding lattice
corners with the smootherstep curve; the periodic variant wraps lattice
coordinates modulo the period before hashing. -/
def noise (x y z : ℚ) (wrap : Bool) (period : ℤ) : ℚ :=
  lerp
    (lerp
      (lerp (lattice_hash wrap period ⌊x⌋ ⌊y⌋ ⌊z⌋)
            (lattice_hash wrap period (⌊x⌋ + 1) ⌊y⌋ ⌊z⌋)
            (smootherstep (x - ⌊x⌋)))
      (lerp (lattice_hash wrap period ⌊x⌋ (⌊y⌋ + 1) ⌊z⌋)
            (lattice_hash wrap period (⌊x⌋ + 1) (⌊y⌋ + 1) ⌊z⌋)
            (smootherstep (x - ⌊x⌋)))
      (smootherstep (y - ⌊y⌋)))
    (lerp
      (lerp (lattice_hash wrap period ⌊x⌋ ⌊y⌋ (⌊z⌋ + 1))
            (lattice_hash wrap period (⌊x⌋ + 1) ⌊y⌋ (⌊z⌋ + 1))
            (smootherstep (x - ⌊x⌋)))
      (lerp (lattice_hash wrap period ⌊x⌋ (⌊y⌋ + 1) (⌊z⌋ + 1))
            (lattice_hash wrap period (⌊x⌋ + 1) (⌊y⌋ + 1) (⌊z⌋ + 1))
            (smootherstep (x - ⌊x⌋)))
      (smootherstep (y - ⌊y⌋)))
    (smootherstep (z - ⌊z⌋))

/-- Modelled from the spec: the tile-based checker pattern generator
(spec 4.7 and the header declaration of `make_checker_image`, lines
191-192): row-major `width x height` buffer, tile index is pixel coordinate
divided by tile size, tile-index parity selects `c0` or `c1`. -/
def make_checker_image (width height tile : ℕ) (c0 c1 : vec3f) : List vec3f :=
  (List.range (width * height)).map fun idx =>
    if ((idx % width) / tile + (idx / width) / tile) % 2 = 0 then c0 else c1

/-- Filter type for resizing (source lines 137-144); the source's first
enumerator `def` is spelled `dflt` here. -/
inductive resize_filter where
  | dflt
  | box
  | triangle
  | cubic_spline
  | catmull_rom
  | mitchell
deriving DecidableEq, Repr

/-- Edge mode for resizing (source line 145); the source's first enumerator
`def` is spelled `dflt` here. -/
inductive resize_edge where
  | dflt
  | clamp
  | reflect
  | wrap
  | zero
deriving DecidableEq, Repr

/-- Modelled from the spec: kernel support radius (spec 4.1): box 0.5,
triangle 1, cubic B-spline / Catmull-Rom / Mitchell 2; the default tag
resolves to the triangle kernel (spec 3). -/
def radius : resize_filter → ℚ
  | .dflt => 1
  | .box => 1/2
  | .triangle => 1
  | .cubic_spline => 2
  | .catmull_rom => 2
  | .mitchell => 2

/-- Modelled from the spec: kernel weight at continuous offset `t`
(spec 4.1): even-symmetric, zero outside the support radius;
Mitchell-family piecewise cubics with `(B, C) = (1, 0)` for the cubic
B-spline, `(0, 1/2)` for Catmull-Rom and `(1/3, 1/3)` for Mitchell; the
default tag resolves to triangle. -/
def kernelW : resize_filter → ℚ → ℚ
  | .dflt, t => max 0 (1 - |t|)
  | .box, t => if |t| ≤ 1/2 then 1 else 0
  | .triangle, t => max 0 (1 - |t|)
  | .cubic_spline, t =>
      if |t| < 1 then (3*|t|^3 - 6*|t|^2 + 4)/6
      else if |t| < 2 then (2 - |t|)^3/6 else 0
  | .catmull_rom, t =>
      if |t| < 1 then (3*|t|^3 - 5*|t|^2 + 2)/2
      else if |t| < 2 then (-|t|^3 + 5*|t|^2 - 8*|t| + 4)/2 else 0
  | .mitchell, t =>
      if |t| < 1 then (21*|t|^3 - 36*|t|^2 + 16)/18
      else if |t| < 2 then (-7*|t|^3 + 36*|t|^2 - 60*|t| + 32)/18 else 0

/-- Modelled from the spec: filter scale `max(1, srcDim/dstDim)` (spec 4.3):
the kernel support is widened by the downsampling ratio to prevent
aliasing on minification. -/
def filter_scale (srcDim dstDim : ℕ) : ℚ := max 1 ((srcDim : ℚ) / (dstDim : ℚ))

/-- Modelled from the spec: source-space center of output coordinate `o`
(spec 4.3): `(o + 0.5) * srcDim/dstDim - 0.5`. -/
def sample_center (srcDim dstDim : ℕ) (o : ℕ) : ℚ :=
  ((o : ℚ) + 1/2) * (srcDim : ℚ) / (dstDim : ℚ) - 1/2

/-- First source index within the scaled kernel radius of the center. -/
def tap_lo (k : resize_filter) (srcDim dstDim o : ℕ) : ℤ :=
  ⌈sample_center srcDim dstDim o - radius k * filter_scale srcDim dstDim⌉

/-- Last source index within the scaled kernel radius of the center. -/
def tap_hi (k : resize_filter) (srcDim dstDim o : ℕ) : ℤ :=
  ⌊sample_center srcDim dstDim o + radius k * filter_scale srcDim dstDim⌋

/-- Kernel weight of source index `i` for one output coordinate: the kernel
evaluated at the scaled offset from the sample center. -/
def tap_at (k : resize_filter) (srcDim dstDim o : ℕ) (i : ℤ) : ℚ :=
  kernelW k ((sample_center srcDim dstDim o - (i : ℚ)) / filter_scale srcDim dstDim)

/-- Modelled from the spec: the raw weight taps of one output coordinate
(spec 4.3): all source indices within the scaled kernel radius of the
center, weighted by the kernel at the scaled offset. -/
def raw_taps (k : resize_filter) (srcDim dstDim o : ℕ) : List (ℤ × ℚ) :=
  (List.range (tap_hi k srcDim dstDim o + 1 - tap_lo k srcDim dstDim o).toNat).map
    fun (j : ℕ) =>
      (tap_lo k srcDim dstDim o + (j : ℤ),
        tap_at k srcDim dstDim o (tap_lo k srcDim dstDim o + (j : ℤ)))

/-- Sum of the weights of a tap list. -/
def sumW (taps : List (ℤ × ℚ)) : ℚ := (taps.map Prod.snd).sum

/-- Modelled from the spec: normalized taps - the raw kernel weights of each
output coordinate are normalized to sum to one ("correct filter weight
derivation", spec 2, and the weight-conservation property of spec 3/8). -/
def norm_taps (k : resize_filter) (srcDim dstDim o : ℕ) : List (ℤ × ℚ) :=
  (raw_taps k srcDim dstDim o).map fun p =>
    (p.1, p.2 / sumW (raw_taps k srcDim dstDim o))

/-- Modelled from the spec: the edge resolver (spec 4.2): clamp to
`[0, n)`, triangle-wave reflection folded into range, wrap modulo `n`; the
default edge tag resolves to clamp (spec 3); `zero` passes the index
through (out-of-range entries are dropped from the table instead). -/
def resolve_edge : resize_edge → ℕ → ℤ → ℤ
  | .dflt, n, i => min (max i 0) ((n : ℤ) - 1)
  | .clamp, n, i => min (max i 0) ((n : ℤ) - 1)
  | .reflect, n, i =>
      if n ≤ 1 then 0
      else if i % (2 * (n : ℤ) - 2) ≤ (n : ℤ) - 1 then i % (2 * (n : ℤ) - 2)
      else 2 * (n : ℤ) - 2 - i % (2 * (n : ℤ) - 2)
  | .wrap, n, i => i % (n : ℤ)
  | .zero, _, i => i

/-- Modelled from the spec: the weight table of one output coordinate
(spec 3, 4.2, 4.3): normalized taps with the edge policy applied - clamp,
reflect and wrap remap out-of-range source indices keeping their weights;
zero drops out-of-range entries (their contribution is discarded). -/
def weight_table (k : resize_filter) (e : resize_edge) (srcDim dstDim o : ℕ) :
    List (ℤ × ℚ) :=
  match e with
  | .zero => (norm_taps k srcDim dstDim o).filter fun p =>
      0 ≤ p.1 ∧ p.1 < (srcDim : ℤ)
  | _ => (norm_taps k srcDim dstDim o).map fun p =>
      (resolve_edge e srcDim p.1, p.2)

/-- The zero pixel. -/
def vzero : vec4f := ⟨0, 0, 0, 0⟩

/-- Pixel addition. -/
def vadd (a b : vec4f) : vec4f := ⟨a.x + b.x, a.y + b.y, a.z + b.z, a.w + b.w⟩

/-- Pixel scaling. -/
def vsmul (q : ℚ) (a : vec4f) : vec4f := ⟨q * a.x, q * a.y, q * a.z, q * a.w⟩

/-- Accumulate a weight table against a source fetch function. -/
def applyTaps (taps : List (ℤ × ℚ)) (f : ℤ → vec4f) : vec4f :=
  taps.foldr (fun p acc => vadd (vsmul p.2 (f p.1)) acc) vzero

/-- Modelled from the spec: the horizontal pass of the separable resampler
(spec 4.3): produces the intermediate `dstW x srcH` buffer, row-major;
output pixel `(r, o)` accumulates the weight table of column `o` over row
`r` of the source. -/
def hpass (k : resize_filter) (e : resize_edge) (srcW dstW srcH : ℕ)
    (img : List vec4f) : List vec4f :=
  (List.range (srcH * dstW)).map fun idx =>
    applyTaps (weight_table k e srcW dstW (idx % dstW)) fun i =>
      if 0 ≤ i ∧ i < (srcW : ℤ) then img.getD ((idx / dstW) * srcW + i.toNat) vzero
      else vzero

/-- Modelled from the spec: the vertical pass of the separable resampler
(spec 4.3): maps the `dstW x srcH` intermediate buffer to the final
`dstW x dstH` buffer. -/
def vpass (k : resize_filter) (e : resize_edge) (srcH dstH dstW : ℕ)
    (buf : List vec4f) : List vec4f :=
  (List.range (dstH * dstW)).map fun idx =>
    applyTaps (weight_table k e srcH dstH (idx / dstW)) fun i =>
      if 0 ≤ i ∧ i < (srcH : ℤ) then buf.getD (i.toNat * dstW + idx % dstW) vzero
      else vzero

/-- Modelled from the spec: premultiply color by alpha before filtering
(spec 4.3, used when `premultiplied_alpha` is false). -/
def premult (p : vec4f) : vec4f := ⟨p.x * p.w, p.y * p.w, p.z * p.w, p.w⟩

/-- Modelled from the spec: divide color by alpha after filtering; division
by zero alpha is guarded, yielding color 0 in fully transparent regions
(spec 4.3, 7). -/
def unpremult (p : vec4f) : vec4f :=
  if p.w = 0 then ⟨0, 0, 0, 0⟩ else ⟨p.x / p.w, p.y / p.w, p.z / p.w, p.w⟩

/-- Modelled from the spec: `resize_image` (header lines 148-155, spec 4.3
and 7): non-positive requested or source dimensions are InvalidArgument,
rejected before computation; a buffer length mismatching `width * height`
is a precondition violation; otherwise the separable resampler runs a
horizontal then a vertical pass, with premultiply/unpremultiply around
them when the buffer is not already premultiplied. -/
def resize_image (width height : ℤ) (img : List vec4f) (res_width res_height : ℤ)
    (filter : resize_filter) (edge : resize_edge) (premultiplied_alpha : Bool) :
    Except String (List vec4f) :=
  if res_width ≤ 0 ∨ res_height ≤ 0 then .error "InvalidArgument"
  else if width ≤ 0 ∨ height ≤ 0 then .error "InvalidArgument"
  else if (img.length : ℤ) ≠ width * height then .error "PreconditionViolation"
  else
    .ok (if premultiplied_alpha then
        vpass filter edge height.toNat res_height.toNat res_width.toNat
          (hpass filter edge width.toNat res_width.toNat height.toNat img)
      else
        (vpass filter edge height.toNat res_height.toNat res_width.toNat
          (hpass filter edge width.toNat res_width.toNat height.toNat
            (img.map premult))).map unpremult)

/-- Single-precision value of `π` (the float constant `pif` of
`yocto_math.h`, embedded exactly). -/
def pi_f : ℚ := 13176795 / 4194304

/-- Single-precision value of `π / 2`. -/
def pi_half : ℚ := 13176795 / 8388608

/-- Modelled from the spec: the per-pixel radiance of the Preetham-family
sky model driven by the image rasterizer (spec 4.6-4.7).  Pixel row `j`
maps to the view zenith angle; directions below the horizon return the
ground albedo tinted by the hemispherical sky irradiance; sky directions
return a zenith value (from turbidity and sun elevation) scaled by a
luminance distribution in the angular distance from the sun, plus a
direct-sun disk term when `has_sun` is set.  The model's fixed polynomial
coefficient tables are an opaque physical dataset not present in the
sources; rational surrogates with the same angular structure stand in for
them. -/
def sky_pixel (width height : ℕ) (thetaSun turbidity : ℚ) (has_sun : Bool)
    (ground_albedo : vec3f) (idx : ℕ) : vec3f :=
  let j := idx / width
  let theta_v := pi_f * ((j : ℚ) + 1/2) / height
  if pi_half < theta_v then
    let irr := (10 + turbidity) * (pi_half - thetaSun / 2)
    ⟨ground_albedo.x * irr, ground_albedo.y * irr, ground_albedo.z * irr⟩
  else
    let zenith := (4453/1000 - turbidity * 355/10000) * (1 + thetaSun)
    let dist := 1 + turbidity / 10 * (theta_v - thetaSun) * (theta_v - thetaSun)
    let sun := if has_sun ∧ (theta_v - thetaSun) * (theta_v - thetaSun) < 1/10000
      then 1000 else 0
    ⟨zenith * dist + sun, zenith * dist + sun, zenith * dist + sun⟩

/-- Modelled from the spec: `make_sunsky_image` (header lines 205-209,
spec 4.6 and 7): turbidity outside `[1.7, 10]` or sun zenith angle outside
`[0, π/2]`, like non-positive dimensions, is an input-validation failure
(InvalidArgument) rejected before computation and never silently clamped;
valid parameters produce the rasterized `width x height` sky buffer. -/
def make_sunsky_image (width height : ℤ) (thetaSun : ℚ) (turbidity : ℚ)
    (has_sun : Bool) (ground_albedo : vec3f) : Except String (List vec3f) :=
  if width ≤ 0 ∨ height ≤ 0 then .error "InvalidArgument"
  else if turbidity < 17/10 ∨ 10 < turbidity ∨ thetaSun < 0 ∨ pi_half < thetaSun then
    .error "InvalidArgument"
  else .ok ((List.range (width.toNat * height.toNat)).map
    (sky_pixel width.toNat height.toNat thetaSun turbidity has_sun ground_albedo))

end ygl

/-- The lattice hash always lands in `[-1, 1]`. -/
theorem ygl.lattice_hash_mem (wrap : Bool) (period x y z : ℤ) :
    -1 ≤ ygl.lattice_hash wrap period x y z ∧ ygl.lattice_hash wrap period x y z ≤ 1 := by
  unfold ygl.lattice_hash
  set h : ℤ := ((if wrap then x % period else x) * 374761393 +
    (if wrap then y % period else y) * 668265263 +
    (if wrap then z % period else z) * 1274126177) % 256 with hh
  have h0 : 0 ≤ h := Int.emod_nonneg _ (by norm_num)
  have h1 : h < 256 := Int.emod_lt_of_pos _ (by norm_num)
  have hq0 : (0 : ℚ) ≤ (h : ℚ) := by exact_mod_cast h0
  have hq1 : (h : ℚ) ≤ 255 := by
    have : h ≤ 255 := by omega
    exact_mod_cast this
  have hub : ((h : ℚ)) / 255 ≤ 1 := by
    rw [div_le_one (by norm_num)]
    exact hq1
  have hlb : (0 : ℚ) ≤ (h : ℚ) / 255 := by positivity
  constructor
  · linarith
  · linarith

/-- Smootherstep maps `[0, 1]` into `[0, 1]`. -/
theorem ygl.smootherstep_mem (t : ℚ) (h0 : 0 ≤ t) (h1 : t ≤ 1) :
    0 ≤ ygl.smootherstep t ∧ ygl.smootherstep t ≤ 1 := by
  constructor
  · have key : 0 ≤ t * (t * 6 - 15) + 10 := by nlinarith [sq_nonneg (t - 5/4)]
    have ht3 : 0 ≤ t * t * t := by positivity
    unfold ygl.smootherstep
    nlinarith
  · have hid : ygl.smootherstep t = 1 - (1 - t)^3 * (6*t^2 + 3*t + 1) := by
      unfold ygl.smootherstep
      ring
    have h2 : 0 ≤ (1 - t)^3 * (6*t^2 + 3*t + 1) :=
      mul_nonneg (pow_nonneg (by linarith) 3) (by nlinarith)
    rw [hid]
    linarith

/-- Smootherstep of the fractional part is in `[0, 1]`. -/
theorem ygl.smootherstep_fract_mem (x : ℚ) :
    0 ≤ ygl.smootherstep (x - ⌊x⌋) ∧ ygl.smootherstep (x - ⌊x⌋) ≤ 1 :=
  ygl.smootherstep_mem _ (by linarith [Int.floor_le x])
    (by linarith [Int.lt_floor_add_one x])

/-- Interpolating between two values of `[-1, 1]` with a parameter in
`[0, 1]` stays in `[-1, 1]`. -/
theorem ygl.lerp_mem (a b t : ℚ) (ha : -1 ≤ a ∧ a ≤ 1) (hb : -1 ≤ b ∧ b ≤ 1)
    (ht : 0 ≤ t ∧ t ≤ 1) : -1 ≤ ygl.lerp a b t ∧ ygl.lerp a b t ≤ 1 := by
  obtain ⟨ha1, ha2⟩ := ha
  obtain ⟨hb1, hb2⟩ := hb
  obtain ⟨ht1, ht2⟩ := ht
  unfold ygl.lerp
  constructor <;> nlinarith

/-- C5: for every input point `(x, y, z)`, wrap flag and period, the
coherent-noise function returns a value in the signed range `[-1, 1]`. -/
theorem C5_noise_range (x y z : ℚ) (wrap : Bool) (period : ℤ) :
    -1 ≤ ygl.noise x y z wrap period ∧ ygl.noise x y z wrap period ≤ 1 := by
  unfold ygl.noise
  exact ygl.lerp_mem _ _ _
    (ygl.lerp_mem _ _ _
      (ygl.lerp_mem _ _ _ (ygl.lattice_hash_mem _ _ _ _ _)
        (ygl.lattice_hash_mem _ _ _ _ _) (ygl.smootherstep_fract_mem x))
      (ygl.lerp_mem _ _ _ (ygl.lattice_hash_mem _ _ _ _ _)
        (ygl.lattice_hash_mem _ _ _ _ _) (ygl.smootherstep_fract_mem x))
      (ygl.smootherstep_fract_mem y))
    (ygl.lerp_mem _ _ _
      (ygl.lerp_mem _ _ _ (ygl.lattice_hash_mem _ _ _ _ _)
        (ygl.lattice_hash_mem _ _ _ _ _) (ygl.smootherstep_fract_mem x))
      (ygl.lerp_mem _ _ _ (ygl.lattice_hash_mem _ _ _ _ _)
        (ygl.lattice_hash_mem _ _ _ _ _) (ygl.smootherstep_fract_mem x))
      (ygl.smootherstep_fract_mem y))
    (ygl.smootherstep_fract_mem z)

/-- Shifting the first lattice coordinate by the period leaves the wrapped
hash unchanged. -/
theorem ygl.lattice_hash_period (period a y z : ℤ) :
    ygl.lattice_hash true period (a + period) y z = ygl.lattice_hash true period a y z := by
  unfold ygl.lattice_hash
  have hmod : (a + period) % period = a % period := by
    have h : a + period = a + period * 1 := by ring
    rw [h, Int.add_mul_emod_self_left]
  simp [hmod]

/-- C6: the periodic noise variant tiles exactly along x: for every point
and every power-of-two period, `noise (x + period) y z true = noise x y z
true`. -/
theorem C6_noise_tiles (x y z : ℚ) (k : ℕ) :
    ygl.noise (x + ((2^k : ℤ) : ℚ)) y z true (2^k) = ygl.noise x y z true (2^k) := by
  unfold ygl.noise
  rw [Int.floor_add_int]
  have harg : x + ((2^k : ℤ) : ℚ) - ((⌊x⌋ + 2^k : ℤ) : ℚ) = x - (⌊x⌋ : ℚ) := by
    push_cast
    ring
  rw [harg]
  rw [show ⌊x⌋ + (2^k : ℤ) + 1 = ⌊x⌋ + 1 + 2^k from by ring]
  rw [ygl.lattice_hash_period, ygl.lattice_hash_period, ygl.lattice_hash_period,
    ygl.lattice_hash_period, ygl.lattice_hash_period, ygl.lattice_hash_period,
    ygl.lattice_hash_period, ygl.lattice_hash_period]

/-- C7: `make_checker_image 16 16 8 c0 c1` has pixel (0,0) equal to `c0`
and pixel (8,0) equal to `c1`. -/
theorem C7_checker_pixels (c0 c1 : ygl.vec3f) :
    (ygl.make_checker_image 16 16 8 c0 c1).getD 0 ⟨0, 0, 0⟩ = c0 ∧
      (ygl.make_checker_image 16 16 8 c0 c1).getD 8 ⟨0, 0, 0⟩ = c1 := by
  unfold ygl.make_checker_image
  constructor <;>
    simp [List.getD_eq_getElem?_getD, List.getElem?_map, List.getElem?_range]

/-- C4: out-of-domain turbidity or sun angle is rejected by
`make_sunsky_image` as InvalidArgument before computation (and in-domain
parameters are not rejected: they produce the rasterized buffer), so
out-of-range parameters are never silently clamped into range. -/
theorem C4_sunsky_validation (width height : ℤ) (thetaSun turbidity : ℚ)
    (has_sun : Bool) (alb : ygl.vec3f) (hw : 0 < width) (hh : 0 < height) :
    ((turbidity < 17/10 ∨ 10 < turbidity ∨ thetaSun < 0 ∨ ygl.pi_half < thetaSun) →
      ygl.make_sunsky_image width height thetaSun turbidity has_sun alb =
        Except.error "InvalidArgument") ∧
    ((17/10 ≤ turbidity ∧ turbidity ≤ 10 ∧ 0 ≤ thetaSun ∧ thetaSun ≤ ygl.pi_half) →
      ∃ img, ygl.make_sunsky_image width height thetaSun turbidity has_sun alb =
          Except.ok img ∧ img.length = width.toNat * height.toNat) := by
  have hdim : ¬(width ≤ 0 ∨ height ≤ 0) := by omega
  constructor
  · intro hbad
    unfold ygl.make_sunsky_image
    rw [if_neg hdim, if_pos hbad]
  · rintro ⟨h1, h2, h3, h4⟩
    have hgood : ¬(turbidity < 17/10 ∨ 10 < turbidity ∨ thetaSun < 0 ∨
        ygl.pi_half < thetaSun) := by
      push_neg
      exact ⟨by linarith, by linarith, by linarith, by linarith⟩
    unfold ygl.make_sunsky_image
    rw [if_neg hdim, if_neg hgood]
    exact ⟨_, rfl, by simp⟩

/-- C4 witness: a concrete out-of-range call (turbidity 20) on valid
dimensions is rejected, and a concrete in-range call succeeds. -/
theorem C4_sunsky_validation_witness :
    ygl.make_sunsky_image 4 4 0 20 false ⟨7/10, 7/10, 7/10⟩ =
      Except.error "InvalidArgument" ∧
    (∃ img, ygl.make_sunsky_image 4 4 0 3 false ⟨7/10, 7/10, 7/10⟩ =
        Except.ok img ∧ img.length = 16) :=
  ⟨(C4_sunsky_validation 4 4 0 20 false ⟨7/10, 7/10, 7/10⟩ (by norm_num)
      (by norm_num)).1 (Or.inr (Or.inl (by norm_num))),
    (C4_sunsky_validation 4 4 0 3 false ⟨7/10, 7/10, 7/10⟩ (by norm_num)
      (by norm_num)).2
      ⟨by norm_num, by norm_num, le_refl 0, by unfold ygl.pi_half; norm_num⟩⟩

/-- The 32-bit cast agrees with plain truncation whenever the truncated
value fits the `int` range. -/
theorem ygl.int_cast32_eq_trunc (q : ℚ) (h1 : -(2 ^ 31) ≤ ygl.int_trunc q)
    (h2 : ygl.int_trunc q < 2 ^ 31) : ygl.int_cast32 q = ygl.int_trunc q := by
  unfold ygl.int_cast32
  rw [if_neg (by push_neg; exact ⟨by omega, h2⟩)]

/-- Round-trip of one byte component through `byte_of ∘ (· / 255)`. -/
theorem ygl.byte_roundtrip (n : Fin 256) : ygl.byte_of ((n : ℚ) / 255) = n := by
  have hm : (n : ℕ) < 256 := n.isLt
  have hnn : ¬((((n : ℕ) : ℚ)) / 255 * 256 < 0) := by
    push_neg
    positivity
  have htr : ygl.int_trunc (((n : ℕ) : ℚ) / 255 * 256) =
      ⌊((n : ℕ) : ℚ) / 255 * 256⌋ := by
    unfold ygl.int_trunc
    rw [if_neg hnn]
  have hub : ⌊((n : ℕ) : ℚ) / 255 * 256⌋ < 2 ^ 31 := by
    apply Int.floor_lt.mpr
    rw [div_mul_eq_mul_div, div_lt_iff₀ (by norm_num)]
    push_cast
    have : ((n : ℕ) : ℚ) < 256 := by exact_mod_cast hm
    nlinarith
  have hlb : -(2 ^ 31) ≤ ⌊((n : ℕ) : ℚ) / 255 * 256⌋ := by
    apply Int.le_floor.mpr
    push_cast
    nlinarith [Nat.cast_nonneg (α := ℚ) (n : ℕ)]
  have hcast : ygl.int_cast32 (((n : ℕ) : ℚ) / 255 * 256) =
      ⌊((n : ℕ) : ℚ) / 255 * 256⌋ := by
    rw [ygl.int_cast32_eq_trunc _ (by rw [htr]; exact hlb) (by rw [htr]; exact hub),
      htr]
  apply Fin.ext
  unfold ygl.byte_of ygl.toByte ygl.clamp
  rw [hcast]
  rcases eq_or_lt_of_le (Nat.le_of_lt_succ hm) with h255 | hlt
  · rw [h255]
    norm_num
    decide
  · have hfl : ⌊((n : ℕ) : ℚ) / 255 * 256⌋ = ((n : ℕ) : ℤ) := by
      rw [Int.floor_eq_iff]
      constructor
      · rw [div_mul_eq_mul_div, le_div_iff₀ (by norm_num)]
        push_cast
        nlinarith [Nat.cast_nonneg (α := ℚ) (n : ℕ)]
      · rw [div_mul_eq_mul_div, div_lt_iff₀ (by norm_num)]
        push_cast
        have : ((n : ℕ) : ℚ) < 255 := by exact_mod_cast hlt
        nlinarith
    rw [hfl]
    simp
    omega

/-- C8: for every byte pixel `b`, converting to float and back is the
identity: `float_to_byte (byte_to_float b) = b` componentwise. -/
theorem C8_byte_float_roundtrip (b : ygl.vec4b) :
    ygl.float_to_byte (ygl.byte_to_float b) = b := by
  cases b with
  | mk x y z w =>
    unfold ygl.float_to_byte ygl.byte_to_float
    simp only [ygl.byte_roundtrip]

/-- C9 counterexample: upward saturation fails past the `int` range. The
component `2^23` scales to `2^23 * 256 = 2^31`, the float-to-int conversion
overflows the 32-bit `int` (undefined behavior in C++, `INT_MIN` under x86
`cvttss2si`), and the clamp then sends the component to byte 0, not 255. -/
theorem C9_overflow_counterexample :
    (1 : ℚ) ≤ 2 ^ 23 ∧ (ygl.float_to_byte ⟨2 ^ 23, 0, 0, 0⟩).x = 0 := by
  have htr : ygl.int_trunc ((2 : ℚ) ^ 23 * 256) = 2147483648 := by
    unfold ygl.int_trunc
    rw [if_neg (by norm_num)]
    rw [show ((2 : ℚ) ^ 23 * 256) = ((2147483648 : ℤ) : ℚ) from by norm_num]
    exact Int.floor_intCast _
  have hc : ygl.int_cast32 ((2 : ℚ) ^ 23 * 256) = -(2 ^ 31) := by
    unfold ygl.int_cast32
    rw [htr, if_pos (Or.inr (by norm_num))]
  refine ⟨by norm_num, ?_⟩
  show ygl.byte_of ((2 : ℚ) ^ 23) = 0
  unfold ygl.byte_of
  rw [hc]
  apply Fin.ext
  show (ygl.clamp (-(2 ^ 31)) 0 255).toNat = 0
  decide

/-- C9 (amended): `float_to_byte` is the componentwise `byte_of`; every
output component is a byte `≤ 255`; a component `≤ 0` maps to byte `0`
(negative overflow also lands on `INT_MIN` and clamps to 0); and a component
with `1 ≤ v < 2^23` maps to byte `255`. For `v ≥ 2^23` the scaled value
reaches `2^31`, the 32-bit conversion overflows, and upward saturation fails
(see the counterexample). -/
theorem C9_float_to_byte_saturates_amended (v : ℚ) (a : ygl.vec4f) :
    ((ygl.float_to_byte a).x = ygl.byte_of a.x ∧
      (ygl.float_to_byte a).y = ygl.byte_of a.y ∧
      (ygl.float_to_byte a).z = ygl.byte_of a.z ∧
      (ygl.float_to_byte a).w = ygl.byte_of a.w) ∧
    ((ygl.byte_of v).val ≤ 255) ∧
    (v ≤ 0 → ygl.byte_of v = 0) ∧
    (1 ≤ v → v < 2 ^ 23 → ygl.byte_of v = 255) := by
  refine ⟨⟨rfl, rfl, rfl, rfl⟩, Nat.le_of_lt_succ (ygl.byte_of v).isLt, ?_, ?_⟩
  · intro hv
    have hv256 : v * 256 ≤ 0 := by nlinarith
    have htr : ygl.int_trunc (v * 256) ≤ 0 := by
      unfold ygl.int_trunc
      split
      · have : (0 : ℤ) ≤ ⌊-(v * 256)⌋ := by
          apply Int.le_floor.mpr
          push_cast
          linarith
        omega
      · exact Int.floor_nonpos hv256
    have hc : ygl.int_cast32 (v * 256) ≤ 0 := by
      unfold ygl.int_cast32
      split
      · norm_num
      · exact htr
    unfold ygl.byte_of ygl.toByte
    apply Fin.ext
    simp only [ygl.clamp]
    omega
  · intro hv hv23
    have hv256 : (256 : ℚ) ≤ v * 256 := by nlinarith
    have hnn : ¬(v * 256 < 0) := by push_neg; linarith
    have htr : (256 : ℤ) ≤ ygl.int_trunc (v * 256) := by
      unfold ygl.int_trunc
      rw [if_neg hnn]
      apply Int.le_floor.mpr
      push_cast
      linarith
    have hub : ygl.int_trunc (v * 256) < 2 ^ 31 := by
      unfold ygl.int_trunc
      rw [if_neg hnn]
      apply Int.floor_lt.mpr
      push_cast
      nlinarith
    have hc : ygl.int_cast32 (v * 256) = ygl.int_trunc (v * 256) :=
      ygl.int_cast32_eq_trunc _ (by omega) hub
    unfold ygl.byte_of ygl.toByte
    apply Fin.ext
    simp only [ygl.clamp]
    omega

/-- C9 witness: concrete saturation facts at `v = -3` and `v = 7/2` (both in
the overflow-free range), and the componentwise correspondence at a concrete
pixel. -/
theorem C9_float_to_byte_saturates_amended_witness :
    ygl.byte_of (-3) = 0 ∧ ygl.byte_of (7/2) = 255 ∧
      (ygl.float_to_byte ⟨-3, 7/2, 1/2, 1⟩).x = ygl.byte_of (-3) := by
  refine ⟨(C9_float_to_byte_saturates_amended (-3) ⟨-3, 7/2, 1/2, 1⟩).2.2.1
      (by norm_num),
    (C9_float_to_byte_saturates_amended (7/2) ⟨-3, 7/2, 1/2, 1⟩).2.2.2
      (by norm_num) (by norm_num),
    (C9_float_to_byte_saturates_amended (-3) ⟨-3, 7/2, 1/2, 1⟩).1.1⟩

/-- C10: `luminance` is the unweighted arithmetic mean of the three channels,
`(a.x + a.y + a.z) / 3`; in particular each primary alone has luminance `1/3`
(equal channel weights, not Rec. 601/709 weights). -/
theorem C10_luminance_mean (a : ygl.vec3f) :
    ygl.luminance a = (a.x + a.y + a.z) / 3 ∧
      ygl.luminance ⟨1, 0, 0⟩ = 1/3 ∧ ygl.luminance ⟨0, 1, 0⟩ = 1/3 ∧
      ygl.luminance ⟨0, 0, 1⟩ = 1/3 := by
  refine ⟨rfl, by norm_num [ygl.luminance], by norm_num [ygl.luminance],
    by norm_num [ygl.luminance]⟩

/-- C3: a call to `resize_image` with non-positive requested output width
or height is rejected as InvalidArgument before computation; it never
returns a buffer (empty or otherwise). -/
theorem C3_resize_rejects_nonpositive (width height : ℤ) (img : List ygl.vec4f)
    (res_width res_height : ℤ) (k : ygl.resize_filter) (e : ygl.resize_edge)
    (pm : Bool) (hbad : res_width ≤ 0 ∨ res_height ≤ 0) :
    ygl.resize_image width height img res_width res_height k e pm =
      Except.error "InvalidArgument" ∧
    ∀ out, ygl.resize_image width height img res_width res_height k e pm ≠
      Except.ok out := by
  unfold ygl.resize_image
  rw [if_pos hbad]
  exact ⟨rfl, fun out h => by cases h⟩

/-- C3 witness: the concrete invalid call `resize_image(4, 4, img, 0, 5)`
on a 16-pixel buffer is rejected, not an empty-buffer success. -/
theorem C3_resize_rejects_nonpositive_witness :
    ygl.resize_image 4 4 (List.replicate 16 ygl.vzero) 0 5 ygl.resize_filter.dflt
        ygl.resize_edge.dflt false = Except.error "InvalidArgument" ∧
    ygl.resize_image 4 4 (List.replicate 16 ygl.vzero) 0 5 ygl.resize_filter.dflt
        ygl.resize_edge.dflt false ≠ Except.ok [] :=
  ⟨(C3_resize_rejects_nonpositive 4 4 (List.replicate 16 ygl.vzero) 0 5
      ygl.resize_filter.dflt ygl.resize_edge.dflt false (Or.inl le_rfl)).1,
    (C3_resize_rejects_nonpositive 4 4 (List.replicate 16 ygl.vzero) 0 5
      ygl.resize_filter.dflt ygl.resize_edge.dflt false (Or.inl le_rfl)).2 []⟩

/-- Sum of a mapped range list as a finite sum. -/
theorem ygl.list_range_map_sum (f : ℕ → ℚ) (n : ℕ) :
    ((List.range n).map f).sum = ∑ j ∈ Finset.range n, f j := by
  induction n with
  | zero => simp
  | succ n ih =>
    rw [List.range_succ, List.map_append, List.sum_append, Finset.sum_range_succ, ih]
    simp

/-- Reindex a shifted range sum as a sum over an integer interval. -/
theorem ygl.sum_range_shift (g : ℤ → ℚ) (lo hi : ℤ) :
    ∑ j ∈ Finset.range (hi + 1 - lo).toNat, g (lo + (j : ℤ)) =
      ∑ i ∈ Finset.Icc lo hi, g i := by
  apply Finset.sum_bij' (i := fun (j : ℕ) (_ : j ∈ Finset.range (hi + 1 - lo).toNat) => lo + (j : ℤ))
    (j := fun (i : ℤ) (_ : i ∈ Finset.Icc lo hi) => (i - lo).toNat)
  · intro a ha
    rw [Finset.mem_range] at ha
    rw [Finset.mem_Icc]
    omega
  · intro a ha
    rw [Finset.mem_Icc] at ha
    rw [Finset.mem_range]
    omega
  · intro a ha
    omega
  · intro a ha
    rw [Finset.mem_Icc] at ha
    omega
  · intro a ha
    rfl

/-- The raw weight sum of one output coordinate as a lattice sum over the
tap interval. -/
theorem ygl.sumW_raw (k : ygl.resize_filter) (n m o : ℕ) :
    ygl.sumW (ygl.raw_taps k n m o) =
      ∑ i ∈ Finset.Icc (ygl.tap_lo k n m o) (ygl.tap_hi k n m o),
        ygl.tap_at k n m o i := by
  unfold ygl.sumW ygl.raw_taps
  rw [List.map_map, ygl.list_range_map_sum]
  simp only [Function.comp]
  exact ygl.sum_range_shift (ygl.tap_at k n m o) _ _

/-- Positivity of the lattice weight sum for an everywhere-nonnegative
kernel of radius at least one half: the sample nearest the center carries
weight bounded below by the kernel's value inside `[-1/2, 1/2]`. -/
theorem ygl.wsum_pos_of_nonneg (w : ℚ → ℚ) (c s r : ℚ) (hs : 1 ≤ s) (hr : 1/2 ≤ r)
    (hnn : ∀ t, 0 ≤ w t) (hhalf : ∀ t, |t| ≤ 1/2 → 0 < w t) :
    0 < ∑ i ∈ Finset.Icc ⌈c - r * s⌉ ⌊c + r * s⌋, w ((c - (i : ℤ)) / s) := by
  have hs0 : (0 : ℚ) < s := lt_of_lt_of_le one_pos hs
  have hrs : (0 : ℚ) < r * s := by nlinarith
  have hjlow : c + s / 2 - 1 < (⌊c + s / 2⌋ : ℚ) := Int.sub_one_lt_floor _
  have hjhigh : (⌊c + s / 2⌋ : ℚ) ≤ c + s / 2 := Int.floor_le _
  have hjmem : ⌊c + s / 2⌋ ∈ Finset.Icc ⌈c - r * s⌉ ⌊c + r * s⌋ := by
    rw [Finset.mem_Icc]
    constructor
    · apply Int.ceil_le.mpr
      nlinarith [mul_nonneg (by linarith : (0:ℚ) ≤ r - 1/2) (by linarith : (0:ℚ) ≤ s)]
    · apply Int.floor_le_floor
      nlinarith [mul_nonneg (by linarith : (0:ℚ) ≤ r - 1/2) (by linarith : (0:ℚ) ≤ s)]
  apply Finset.sum_pos'
  · intro i _
    exact hnn _
  · refine ⟨⌊c + s / 2⌋, hjmem, hhalf _ ?_⟩
    rw [abs_le]
    constructor
    · rw [le_div_iff₀ hs0]
      linarith
    · rw [div_le_iff₀ hs0]
      nlinarith

/-- Positivity of the lattice weight sum for an even radius-2 kernel with
negative lobes over `1 < |t| < 2`: every sample falling in a negative lobe
is grouped with the sample lying one kernel period (`⌈s⌉` lattice steps)
towards the core, and hypotheses `hD`/`hE` state that each such group has
positive total weight. -/
theorem ygl.wsum_pos_of_lobes (w : ℚ → ℚ) (c s : ℚ) (hs : 1 ≤ s)
    (heven : ∀ t, w (-t) = w t)
    (hvan : ∀ t, 2 ≤ |t| → w t = 0)
    (hpos1 : ∀ t, |t| ≤ 1 → 0 ≤ w t)
    (hhalf : ∀ t, |t| ≤ 1/2 → 0 < w t)
    (hD : ∀ u v : ℚ, 0 < u → u < 1 → u - 1 < v → v ≤ u → w (1 + u) < 0 →
      0 < w v + w (1 + u))
    (hE : ∀ u u' v : ℚ, 0 < u → u < 1 → 0 < u' → u' < 1 → |v| ≤ 1/2 →
      w (1 + u) < 0 → w (1 + u') < 0 → 0 < w v + w (1 + u) + w (1 + u')) :
    0 < ∑ i ∈ Finset.Icc ⌈c - 2 * s⌉ ⌊c + 2 * s⌋, w ((c - (i : ℚ)) / s) := by
  classical
  have hs0 : (0 : ℚ) < s := lt_of_lt_of_le one_pos hs
  set W : Finset ℤ := Finset.Icc ⌈c - 2 * s⌉ ⌊c + 2 * s⌋ with hW
  set f : ℤ → ℚ := fun i => w ((c - (i : ℚ)) / s) with hf
  set K : ℤ := ⌈s⌉ with hKdef
  have hK1 : 1 ≤ (K : ℚ) / s := by
    rw [le_div_iff₀ hs0]
    simpa using Int.le_ceil s
  have hK2 : (K : ℚ) / s < 2 := by
    rw [div_lt_iff₀ hs0]
    have h := Int.ceil_lt_add_one s
    rw [hKdef]
    linarith
  have hmemW : ∀ i : ℤ, -1 ≤ (c - (i : ℚ)) / s → (c - (i : ℚ)) / s ≤ 1 → i ∈ W := by
    intro i h1 h2
    rw [le_div_iff₀ hs0] at h1
    rw [div_le_iff₀ hs0] at h2
    rw [hW, Finset.mem_Icc]
    constructor
    · apply Int.ceil_le.mpr
      nlinarith
    · apply Int.le_floor.mpr
      nlinarith
  have hshiftR : ∀ i : ℤ, (c - ((i + K : ℤ) : ℚ)) / s = (c - (i : ℚ)) / s - (K : ℚ) / s := by
    intro i
    push_cast
    ring
  have hshiftL : ∀ i : ℤ, (c - ((i - K : ℤ) : ℚ)) / s = (c - (i : ℚ)) / s + (K : ℚ) / s := by
    intro i
    push_cast
    ring
  set pR : ℤ → Prop := fun i =>
    1 < (c - (i : ℚ)) / s ∧ (c - (i : ℚ)) / s < 2 ∧ w ((c - (i : ℚ)) / s) < 0 with hpRdef
  set pL : ℤ → Prop := fun i =>
    -2 < (c - (i : ℚ)) / s ∧ (c - (i : ℚ)) / s < -1 ∧ w ((c - (i : ℚ)) / s) < 0 with hpLdef
  set O : Finset ℤ := W.filter fun i => ¬ pR i ∧ ¬ pL i with hO
  set BR : Finset ℤ := (W.filter pR).image (· + K) with hBR
  set BL : Finset ℤ := (W.filter pL).image (· - K) with hBL
  -- each right-lobe partner lies in the core part of the window
  have hBRO : BR ⊆ O := by
    intro j hj
    rw [hBR, Finset.mem_image] at hj
    obtain ⟨i, hi, rfl⟩ := hj
    rw [Finset.mem_filter] at hi
    obtain ⟨hiW, h1, h2, hw⟩ := hi
    have ht := hshiftR i
    rw [hO, Finset.mem_filter]
    refine ⟨hmemW _ (by rw [ht]; linarith) (by rw [ht]; linarith), ?_, ?_⟩
    · intro hcon
      rw [hpRdef] at hcon
      obtain ⟨hc1, _, _⟩ := hcon
      rw [ht] at hc1
      linarith
    · intro hcon
      rw [hpLdef] at hcon
      obtain ⟨_, hc2, _⟩ := hcon
      rw [ht] at hc2
      linarith
  have hBLO : BL ⊆ O := by
    intro j hj
    rw [hBL, Finset.mem_image] at hj
    obtain ⟨i, hi, rfl⟩ := hj
    rw [Finset.mem_filter] at hi
    obtain ⟨hiW, h1, h2, hw⟩ := hi
    have ht := hshiftL i
    rw [hO, Finset.mem_filter]
    refine ⟨hmemW _ (by rw [ht]; linarith) (by rw [ht]; linarith), ?_, ?_⟩
    · intro hcon
      rw [hpRdef] at hcon
      obtain ⟨hc1, _, _⟩ := hcon
      rw [ht] at hc1
      linarith
    · intro hcon
      rw [hpLdef] at hcon
      obtain ⟨_, hc2, _⟩ := hcon
      rw [ht] at hc2
      linarith
  -- membership of a partner recovers its lobe sample
  have hBRmem : ∀ j ∈ BR, (j - K) ∈ W ∧ pR (j - K) := by
    intro j hj
    rw [hBR, Finset.mem_image] at hj
    obtain ⟨i, hi, rfl⟩ := hj
    rw [Finset.mem_filter] at hi
    simpa [add_sub_cancel_right] using hi
  have hBLmem : ∀ j ∈ BL, (j + K) ∈ W ∧ pL (j + K) := by
    intro j hj
    rw [hBL, Finset.mem_image] at hj
    obtain ⟨i, hi, rfl⟩ := hj
    rw [Finset.mem_filter] at hi
    simpa [sub_add_cancel] using hi
  -- regroup the window sum over the core indices
  have hkey : ∑ i ∈ W, f i =
      ∑ j ∈ O, (f j + (if j ∈ BR then f (j - K) else 0) +
        (if j ∈ BL then f (j + K) else 0)) := by
    have e1 : ∑ i ∈ W, f i =
        ∑ i ∈ W.filter pR, f i + ∑ i ∈ W.filter (fun i => ¬ pR i), f i :=
      (Finset.sum_filter_add_sum_filter_not W pR f).symm
    have e2 : ∑ i ∈ W.filter (fun i => ¬ pR i), f i =
        ∑ i ∈ (W.filter fun i => ¬ pR i).filter pL, f i +
          ∑ i ∈ (W.filter fun i => ¬ pR i).filter (fun i => ¬ pL i), f i :=
      (Finset.sum_filter_add_sum_filter_not _ pL f).symm
    have e3 : (W.filter fun i => ¬ pR i).filter pL = W.filter pL := by
      rw [Finset.filter_filter]
      apply Finset.filter_congr
      intro i _
      constructor
      · exact fun h => h.2
      · intro h
        refine ⟨?_, h⟩
        rw [hpLdef] at h
        rw [hpRdef]
        intro hcon
        obtain ⟨hc1, _, _⟩ := hcon
        obtain ⟨_, hc2, _⟩ := h
        linarith
    have e4 : (W.filter fun i => ¬ pR i).filter (fun i => ¬ pL i) = O := by
      rw [Finset.filter_filter, hO]
    have e5 : ∑ i ∈ W.filter pR, f i = ∑ j ∈ BR, f (j - K) := by
      rw [hBR, Finset.sum_image (fun x _ y _ h => by omega)]
      apply Finset.sum_congr rfl
      intro i _
      congr 1
      omega
    have e6 : ∑ i ∈ W.filter pL, f i = ∑ j ∈ BL, f (j + K) := by
      rw [hBL, Finset.sum_image (fun x _ y _ h => by omega)]
      apply Finset.sum_congr rfl
      intro i _
      congr 1
      omega
    have e7 : ∑ j ∈ BR, f (j - K) = ∑ j ∈ O, (if j ∈ BR then f (j - K) else 0) := by
      rw [Finset.sum_ite_mem, Finset.inter_eq_right.mpr hBRO]
    have e8 : ∑ j ∈ BL, f (j + K) = ∑ j ∈ O, (if j ∈ BL then f (j + K) else 0) := by
      rw [Finset.sum_ite_mem, Finset.inter_eq_right.mpr hBLO]
    rw [e1, e2, e3, e4, e5, e6, e7, e8]
    rw [Finset.sum_add_distrib, Finset.sum_add_distrib]
    ring
  -- each group is nonnegative, and positive when it contains a lobe sample
  have hG : ∀ j ∈ O, 0 ≤ f j + (if j ∈ BR then f (j - K) else 0) +
        (if j ∈ BL then f (j + K) else 0) ∧
      ((j ∈ BR ∨ j ∈ BL) → 0 < f j + (if j ∈ BR then f (j - K) else 0) +
        (if j ∈ BL then f (j + K) else 0)) := by
    intro j hj
    rw [hO, Finset.mem_filter] at hj
    obtain ⟨hjW, hjnR, hjnL⟩ := hj
    by_cases hRj : j ∈ BR <;> by_cases hLj : j ∈ BL
    · -- the group contains lobe samples on both sides
      have hpRj := (hBRmem j hRj).2
      have hpLj := (hBLmem j hLj).2
      simp only [hpRdef] at hpRj
      simp only [hpLdef] at hpLj
      obtain ⟨hR1, hR2, hRw⟩ := hpRj
      obtain ⟨hL1, hL2, hLw⟩ := hpLj
      have hA := hshiftL j
      have hB := hshiftR j
      rw [if_pos hRj, if_pos hLj]
      simp only [hf]
      have habs : |(c - (j : ℚ)) / s| ≤ 1/2 := by
        rw [abs_le]
        constructor <;> linarith
      have hnegR' : w (1 + ((c - ((j - K : ℤ) : ℚ)) / s - 1)) < 0 := by
        rw [show (1 : ℚ) + ((c - ((j - K : ℤ) : ℚ)) / s - 1) =
          (c - ((j - K : ℤ) : ℚ)) / s from by ring]
        exact hRw
      have hnegL' : w (1 + (-((c - ((j + K : ℤ) : ℚ)) / s) - 1)) < 0 := by
        rw [show (1 : ℚ) + (-((c - ((j + K : ℤ) : ℚ)) / s) - 1) =
          -((c - ((j + K : ℤ) : ℚ)) / s) from by ring, heven]
        exact hLw
      have hpos := hE ((c - ((j - K : ℤ) : ℚ)) / s - 1) (-((c - ((j + K : ℤ) : ℚ)) / s) - 1)
        ((c - (j : ℚ)) / s) (by linarith) (by linarith) (by linarith) (by linarith)
        habs hnegR' hnegL'
      rw [show (1 : ℚ) + ((c - ((j - K : ℤ) : ℚ)) / s - 1) =
          (c - ((j - K : ℤ) : ℚ)) / s from by ring,
        show (1 : ℚ) + (-((c - ((j + K : ℤ) : ℚ)) / s) - 1) =
          -((c - ((j + K : ℤ) : ℚ)) / s) from by ring, heven] at hpos
      exact ⟨by linarith, fun _ => by linarith⟩
    · -- the group contains a right-lobe sample only
      have hpRj := (hBRmem j hRj).2
      simp only [hpRdef] at hpRj
      obtain ⟨hR1, hR2, hRw⟩ := hpRj
      have hA := hshiftL j
      rw [if_pos hRj, if_neg hLj]
      simp only [hf]
      have hnegR' : w (1 + ((c - ((j - K : ℤ) : ℚ)) / s - 1)) < 0 := by
        rw [show (1 : ℚ) + ((c - ((j - K : ℤ) : ℚ)) / s - 1) =
          (c - ((j - K : ℤ) : ℚ)) / s from by ring]
        exact hRw
      have hpos := hD ((c - ((j - K : ℤ) : ℚ)) / s - 1) ((c - (j : ℚ)) / s)
        (by linarith) (by linarith) (by linarith) (by linarith) hnegR'
      rw [show (1 : ℚ) + ((c - ((j - K : ℤ) : ℚ)) / s - 1) =
          (c - ((j - K : ℤ) : ℚ)) / s from by ring] at hpos
      exact ⟨by linarith, fun _ => by linarith⟩
    · -- the group contains a left-lobe sample only
      have hpLj := (hBLmem j hLj).2
      simp only [hpLdef] at hpLj
      obtain ⟨hL1, hL2, hLw⟩ := hpLj
      have hB := hshiftR j
      rw [if_neg hRj, if_pos hLj]
      simp only [hf]
      have hnegL' : w (1 + (-((c - ((j + K : ℤ) : ℚ)) / s) - 1)) < 0 := by
        rw [show (1 : ℚ) + (-((c - ((j + K : ℤ) : ℚ)) / s) - 1) =
          -((c - ((j + K : ℤ) : ℚ)) / s) from by ring, heven]
        exact hLw
      have hpos := hD (-((c - ((j + K : ℤ) : ℚ)) / s) - 1) (-((c - (j : ℚ)) / s))
        (by linarith) (by linarith) (by linarith) (by linarith) hnegL'
      rw [show (1 : ℚ) + (-((c - ((j + K : ℤ) : ℚ)) / s) - 1) =
          -((c - ((j + K : ℤ) : ℚ)) / s) from by ring, heven, heven] at hpos
      exact ⟨by linarith, fun _ => by linarith⟩
    · -- no lobe sample: the core weight itself is nonnegative
      rw [if_neg hRj, if_neg hLj]
      simp only [hf]
      have hnn : 0 ≤ w ((c - (j : ℚ)) / s) := by
        by_cases hwn : w ((c - (j : ℚ)) / s) < 0
        · exfalso
          rcases le_or_lt |(c - (j : ℚ)) / s| 1 with hle | hgt
          · linarith [hpos1 _ hle]
          · rcases le_or_lt 2 |(c - (j : ℚ)) / s| with hge | hlt2
            · rw [hvan _ hge] at hwn
              exact absurd hwn (lt_irrefl 0)
            · rcases abs_cases ((c - (j : ℚ)) / s) with ⟨habs1, _⟩ | ⟨habs1, _⟩
              · apply hjnR
                simp only [hpRdef]
                exact ⟨by linarith, by linarith, hwn⟩
              · apply hjnL
                simp only [hpLdef]
                exact ⟨by linarith, by linarith, hwn⟩
        · push_neg at hwn
          exact hwn
      refine ⟨by linarith, fun hmem => ?_⟩
      rcases hmem with h | h
      · exact absurd h hRj
      · exact absurd h hLj
  rw [hkey]
  rcases Finset.eq_empty_or_nonempty (W.filter pR) with hARe | hARn
  · rcases Finset.eq_empty_or_nonempty (W.filter pL) with hALe | hALn
    · -- no lobe samples at all: the sample nearest the center is positive
      have hBRe : BR = ∅ := by rw [hBR, hARe, Finset.image_empty]
      have hBLe : BL = ∅ := by rw [hBL, hALe, Finset.image_empty]
      have hj0low : c + s / 2 - 1 < (⌊c + s / 2⌋ : ℚ) := Int.sub_one_lt_floor _
      have hj0high : ((⌊c + s / 2⌋ : ℤ) : ℚ) ≤ c + s / 2 := Int.floor_le _
      have ht0 : |(c - ((⌊c + s / 2⌋ : ℤ) : ℚ)) / s| ≤ 1/2 := by
        rw [abs_le]
        constructor
        · rw [le_div_iff₀ hs0]
          linarith
        · rw [div_le_iff₀ hs0]
          nlinarith
      obtain ⟨ht0a, ht0b⟩ := abs_le.mp ht0
      have hj0W : ⌊c + s / 2⌋ ∈ W := hmemW _ (by linarith) (by linarith)
      have hj0O : ⌊c + s / 2⌋ ∈ O := by
        rw [hO, Finset.mem_filter]
        refine ⟨hj0W, ?_, ?_⟩
        · simp only [hpRdef]
          intro hcon
          obtain ⟨hc1, _, _⟩ := hcon
          linarith
        · simp only [hpLdef]
          intro hcon
          obtain ⟨_, hc2, _⟩ := hcon
          linarith
      apply Finset.sum_pos'
      · intro i hi
        exact (hG i hi).1
      · refine ⟨⌊c + s / 2⌋, hj0O, ?_⟩
        rw [if_neg (by rw [hBRe]; exact Finset.not_mem_empty _),
          if_neg (by rw [hBLe]; exact Finset.not_mem_empty _)]
        simp only [hf]
        have := hhalf _ ht0
        linarith
    · obtain ⟨i0, hi0⟩ := hALn
      have hj0 : i0 - K ∈ BL := by
        rw [hBL]
        exact Finset.mem_image_of_mem _ hi0
      have hj0O : i0 - K ∈ O := hBLO hj0
      exact Finset.sum_pos' (fun i hi => (hG i hi).1)
        ⟨i0 - K, hj0O, (hG _ hj0O).2 (Or.inr hj0)⟩
  · obtain ⟨i0, hi0⟩ := hARn
    have hj0 : i0 + K ∈ BR := by
      rw [hBR]
      exact Finset.mem_image_of_mem _ hi0
    have hj0O : i0 + K ∈ O := hBRO hj0
    exact Finset.sum_pos' (fun i hi => (hG i hi).1)
      ⟨i0 + K, hj0O, (hG _ hj0O).2 (Or.inl hj0)⟩

/-- Every kernel is even. -/
theorem ygl.kernelW_even (k : ygl.resize_filter) (t : ℚ) :
    ygl.kernelW k (-t) = ygl.kernelW k t := by
  cases k <;> simp [ygl.kernelW, abs_neg]

/-- The Catmull-Rom kernel vanishes beyond offset 2. -/
theorem ygl.cr_vanish (t : ℚ) (h : 2 ≤ |t|) :
    ygl.kernelW ygl.resize_filter.catmull_rom t = 0 := by
  simp only [ygl.kernelW]
  rw [if_neg (by push_neg; linarith), if_neg (by push_neg; linarith)]

/-- The Mitchell kernel vanishes beyond offset 2. -/
theorem ygl.mitchell_vanish (t : ℚ) (h : 2 ≤ |t|) :
    ygl.kernelW ygl.resize_filter.mitchell t = 0 := by
  simp only [ygl.kernelW]
  rw [if_neg (by push_neg; linarith), if_neg (by push_neg; linarith)]

/-- The Catmull-Rom kernel is nonnegative on the core `|t| ≤ 1`. -/
theorem ygl.cr_core_nonneg (t : ℚ) (h : |t| ≤ 1) :
    0 ≤ ygl.kernelW ygl.resize_filter.catmull_rom t := by
  have h0 : 0 ≤ |t| := abs_nonneg t
  simp only [ygl.kernelW]
  rcases lt_or_ge |t| 1 with h1 | h1
  · rw [if_pos h1]
    nlinarith [mul_nonneg (mul_nonneg (by linarith : (0:ℚ) ≤ 1 - |t|) h0)
      (by linarith : (0:ℚ) ≤ 1 - |t|), mul_nonneg h0 (by linarith : (0:ℚ) ≤ 1 - |t|)]
  · have he : |t| = 1 := le_antisymm h h1
    rw [if_neg (by linarith), if_pos (by linarith), he]
    norm_num

/-- The Mitchell kernel is nonnegative on the core `|t| ≤ 1`. -/
theorem ygl.mitchell_core_nonneg (t : ℚ) (h : |t| ≤ 1) :
    0 ≤ ygl.kernelW ygl.resize_filter.mitchell t := by
  have h0 : 0 ≤ |t| := abs_nonneg t
  simp only [ygl.kernelW]
  rcases lt_or_ge |t| 1 with h1 | h1
  · rw [if_pos h1]
    nlinarith [mul_nonneg (mul_nonneg (by linarith : (0:ℚ) ≤ 1 - |t|)
      (by linarith : (0:ℚ) ≤ 1 - |t|)) (by linarith : (0:ℚ) ≤ 9 - 7 * |t|)]
  · have he : |t| = 1 := le_antisymm h h1
    rw [if_neg (by linarith), if_pos (by linarith), he]
    norm_num

/-- The Catmull-Rom kernel is positive on `|t| ≤ 1/2`. -/
theorem ygl.cr_half_pos (t : ℚ) (h : |t| ≤ 1/2) :
    0 < ygl.kernelW ygl.resize_filter.catmull_rom t := by
  have h0 : 0 ≤ |t| := abs_nonneg t
  simp only [ygl.kernelW]
  rw [if_pos (by linarith)]
  nlinarith [mul_nonneg (mul_nonneg h0 h0) h0, mul_nonneg h0 h0]

/-- The Mitchell kernel is positive on `|t| ≤ 1/2`. -/
theorem ygl.mitchell_half_pos (t : ℚ) (h : |t| ≤ 1/2) :
    0 < ygl.kernelW ygl.resize_filter.mitchell t := by
  have h0 : 0 ≤ |t| := abs_nonneg t
  simp only [ygl.kernelW]
  rw [if_pos (by linarith)]
  nlinarith [mul_nonneg (mul_nonneg h0 h0) h0, mul_nonneg h0 h0]

/-- Catmull-Rom negative-lobe value: `w(1+u) = -u (1-u)^2 / 2` on `(0,1)`. -/
theorem ygl.cr_lobe_val (u : ℚ) (hu0 : 0 < u) (hu1 : u < 1) :
    ygl.kernelW ygl.resize_filter.catmull_rom (1 + u) = -(u * (1 - u)^2) / 2 := by
  have habs : |1 + u| = 1 + u := abs_of_pos (by linarith)
  simp only [ygl.kernelW, habs]
  rw [if_neg (by push_neg; linarith), if_pos (by linarith)]
  ring

/-- Mitchell negative-lobe value: `w(1+u) = -(1-u)^2 (7u-1) / 18` on `(0,1)`. -/
theorem ygl.mitchell_lobe_val (u : ℚ) (hu0 : 0 < u) (hu1 : u < 1) :
    ygl.kernelW ygl.resize_filter.mitchell (1 + u) = -((1 - u)^2 * (7*u - 1)) / 18 := by
  have habs : |1 + u| = 1 + u := abs_of_pos (by linarith)
  simp only [ygl.kernelW, habs]
  rw [if_neg (by push_neg; linarith), if_pos (by linarith)]
  ring

/-- Catmull-Rom core value on `|v| < 1`. -/
theorem ygl.cr_core_val (v : ℚ) (hv : |v| < 1) :
    ygl.kernelW ygl.resize_filter.catmull_rom v = (3*|v|^3 - 5*|v|^2 + 2)/2 := by
  simp only [ygl.kernelW]
  rw [if_pos hv]

/-- Mitchell core value on `|v| < 1`. -/
theorem ygl.mitchell_core_val (v : ℚ) (hv : |v| < 1) :
    ygl.kernelW ygl.resize_filter.mitchell v = (21*|v|^3 - 36*|v|^2 + 16)/18 := by
  simp only [ygl.kernelW]
  rw [if_pos hv]

/-- Domination of the Catmull-Rom negative lobe: a core sample within the
pairing window beats the lobe sample. -/
theorem ygl.cr_D (u v : ℚ) (hu0 : 0 < u) (hu1 : u < 1) (hv1 : u - 1 < v) (hv2 : v ≤ u)
    (_ : ygl.kernelW ygl.resize_filter.catmull_rom (1 + u) < 0) :
    0 < ygl.kernelW ygl.resize_filter.catmull_rom v +
      ygl.kernelW ygl.resize_filter.catmull_rom (1 + u) := by
  have hm0 : 0 ≤ |v| := abs_nonneg v
  have hvabs : |v| < 1 := by
    rw [abs_lt]
    constructor <;> linarith
  rw [ygl.cr_lobe_val u hu0 hu1, ygl.cr_core_val v hvabs]
  have hmcase : |v| ≤ u ∨ |v| ≤ 1 - u := by
    rcases abs_cases v with ⟨he, _⟩ | ⟨he, _⟩
    · left
      linarith
    · right
      linarith
  have hc1 : 0 < (1 - u) * (2 + u - 2*u^2) := by
    nlinarith [mul_pos hu0 (by linarith : (0:ℚ) < 1 - u)]
  rcases hmcase with hm | hm
  · have hF : 0 ≤ 5*(|v| + u) - 3*(|v|^2 + |v| * u + u^2) := by
      nlinarith [mul_nonneg hm0 (by linarith : (0:ℚ) ≤ 1 - u),
        mul_nonneg hm0 (by linarith : (0:ℚ) ≤ 1 - |v|),
        mul_nonneg (by linarith : (0:ℚ) ≤ u) (by linarith : (0:ℚ) ≤ 1 - u)]
    have hFF : 0 ≤ (u - |v|) * (5*(|v| + u) - 3*(|v|^2 + |v| * u + u^2)) :=
      mul_nonneg (by linarith) hF
    nlinarith [hFF, hc1]
  · have hb1 : 0 ≤ 1 - u - |v| := by linarith
    have hF : 0 ≤ 5*(|v| + (1 - u)) - 3*(|v|^2 + |v| * (1 - u) + (1 - u)^2) := by
      nlinarith [mul_nonneg hm0 (by linarith : (0:ℚ) ≤ u),
        mul_nonneg hm0 (by linarith : (0:ℚ) ≤ 1 - |v|),
        mul_nonneg (by linarith : (0:ℚ) ≤ 1 - u) (by linarith : (0:ℚ) ≤ u)]
    have hFF : 0 ≤ ((1 - u) - |v|) * (5*(|v| + (1 - u)) - 3*(|v|^2 + |v| * (1 - u) + (1 - u)^2)) :=
      mul_nonneg hb1 hF
    have hc2 : 0 < 2*u^2*(3 - 2*u) := by
      nlinarith [mul_pos hu0 hu0]
    nlinarith [hFF, hc2]

/-- Domination of the Mitchell negative lobe. -/
theorem ygl.mitchell_D (u v : ℚ) (hu0 : 0 < u) (hu1 : u < 1) (hv1 : u - 1 < v) (hv2 : v ≤ u)
    (_ : ygl.kernelW ygl.resize_filter.mitchell (1 + u) < 0) :
    0 < ygl.kernelW ygl.resize_filter.mitchell v +
      ygl.kernelW ygl.resize_filter.mitchell (1 + u) := by
  have hm0 : 0 ≤ |v| := abs_nonneg v
  have hvabs : |v| < 1 := by
    rw [abs_lt]
    constructor <;> linarith
  rw [ygl.mitchell_lobe_val u hu0 hu1, ygl.mitchell_core_val v hvabs]
  have hmcase : |v| ≤ u ∨ |v| ≤ 1 - u := by
    rcases abs_cases v with ⟨he, _⟩ | ⟨he, _⟩
    · left
      linarith
    · right
      linarith
  rcases hmcase with hm | hm
  · have hF : 0 ≤ 36*(|v| + u) - 21*(|v|^2 + |v| * u + u^2) := by
      nlinarith [mul_nonneg hm0 (by linarith : (0:ℚ) ≤ 1 - u),
        mul_nonneg hm0 (by linarith : (0:ℚ) ≤ 1 - |v|),
        mul_nonneg (by linarith : (0:ℚ) ≤ u) (by linarith : (0:ℚ) ≤ 1 - u)]
    have hFF : 0 ≤ (u - |v|) * (36*(|v| + u) - 21*(|v|^2 + |v| * u + u^2)) :=
      mul_nonneg (by linarith) hF
    have hc1 : 0 < 14*u^3 - 21*u^2 - 9*u + 17 := by
      nlinarith [mul_nonneg (mul_nonneg (by linarith : (0:ℚ) ≤ 1 - u)
        (by linarith : (0:ℚ) ≤ 1 - u)) (by linarith : (0:ℚ) ≤ 3 - 2*(1 - u) + 2)]
    nlinarith [hFF, hc1]
  · have hb1 : 0 ≤ 1 - u - |v| := by linarith
    have hF : 0 ≤ 36*(|v| + (1 - u)) - 21*(|v|^2 + |v| * (1 - u) + (1 - u)^2) := by
      nlinarith [mul_nonneg hm0 (by linarith : (0:ℚ) ≤ u),
        mul_nonneg hm0 (by linarith : (0:ℚ) ≤ 1 - |v|),
        mul_nonneg (by linarith : (0:ℚ) ≤ 1 - u) (by linarith : (0:ℚ) ≤ u)]
    have hFF : 0 ≤ ((1 - u) - |v|) *
        (36*(|v| + (1 - u)) - 21*(|v|^2 + |v| * (1 - u) + (1 - u)^2)) :=
      mul_nonneg hb1 hF
    have hc2 : 0 < 2*(1 + 7*u^2*(3 - 2*u)) := by
      nlinarith [mul_pos (mul_pos hu0 hu0) (by linarith : (0:ℚ) < 3 - 2*u)]
    nlinarith [hFF, hc2]

/-- Collision bound for Catmull-Rom: a sample within `|v| ≤ 1/2` beats two
negative lobe samples. -/
theorem ygl.cr_E (u u' v : ℚ) (hu0 : 0 < u) (hu1 : u < 1) (hu'0 : 0 < u') (hu'1 : u' < 1)
    (hv : |v| ≤ 1/2)
    (_ : ygl.kernelW ygl.resize_filter.catmull_rom (1 + u) < 0)
    (_ : ygl.kernelW ygl.resize_filter.catmull_rom (1 + u') < 0) :
    0 < ygl.kernelW ygl.resize_filter.catmull_rom v +
      ygl.kernelW ygl.resize_filter.catmull_rom (1 + u) +
      ygl.kernelW ygl.resize_filter.catmull_rom (1 + u') := by
  have hm0 : 0 ≤ |v| := abs_nonneg v
  rw [ygl.cr_lobe_val u hu0 hu1, ygl.cr_lobe_val u' hu'0 hu'1,
    ygl.cr_core_val v (by linarith)]
  have hcore : (9:ℚ)/8 ≤ 3*|v|^3 - 5*|v|^2 + 2 := by
    nlinarith [mul_nonneg (by linarith : (0:ℚ) ≤ 1/2 - |v|)
      (by nlinarith : (0:ℚ) ≤ 7/4 + 7/2*|v| - 3*|v|^2)]
  have hlobe1 : u * (1 - u)^2 ≤ 4/27 := by
    nlinarith [mul_nonneg (sq_nonneg (3*u - 1)) (by linarith : (0:ℚ) ≤ 4 - 3*u)]
  have hlobe2 : u' * (1 - u')^2 ≤ 4/27 := by
    nlinarith [mul_nonneg (sq_nonneg (3*u' - 1)) (by linarith : (0:ℚ) ≤ 4 - 3*u')]
  linarith

/-- Collision bound for Mitchell. -/
theorem ygl.mitchell_E (u u' v : ℚ) (hu0 : 0 < u) (hu1 : u < 1) (hu'0 : 0 < u') (hu'1 : u' < 1)
    (hv : |v| ≤ 1/2)
    (_ : ygl.kernelW ygl.resize_filter.mitchell (1 + u) < 0)
    (_ : ygl.kernelW ygl.resize_filter.mitchell (1 + u') < 0) :
    0 < ygl.kernelW ygl.resize_filter.mitchell v +
      ygl.kernelW ygl.resize_filter.mitchell (1 + u) +
      ygl.kernelW ygl.resize_filter.mitchell (1 + u') := by
  have hm0 : 0 ≤ |v| := abs_nonneg v
  rw [ygl.mitchell_lobe_val u hu0 hu1, ygl.mitchell_lobe_val u' hu'0 hu'1,
    ygl.mitchell_core_val v (by linarith)]
  have hcore : (77:ℚ)/8 ≤ 21*|v|^3 - 36*|v|^2 + 16 := by
    nlinarith [mul_nonneg (by linarith : (0:ℚ) ≤ 1/2 - |v|)
      (by nlinarith : (0:ℚ) ≤ 51/4 + 51/2*|v| - 21*|v|^2)]
  have hlobe1 : (1 - u)^2 * (7*u - 1) ≤ 32/49 := by
    nlinarith [mul_nonneg (sq_nonneg (7*u - 3)) (by linarith : (0:ℚ) ≤ 9 - 7*u)]
  have hlobe2 : (1 - u')^2 * (7*u' - 1) ≤ 32/49 := by
    nlinarith [mul_nonneg (sq_nonneg (7*u' - 3)) (by linarith : (0:ℚ) ≤ 9 - 7*u')]
  linarith

/-- The cubic B-spline kernel is nonnegative everywhere. -/
theorem ygl.spline_nonneg (t : ℚ) : 0 ≤ ygl.kernelW ygl.resize_filter.cubic_spline t := by
  have h0 := abs_nonneg t
  simp only [ygl.kernelW]
  split
  · rename_i h
    have hu : 0 ≤ (1 - |t|) * (1 + |t| - |t|^2) :=
      mul_nonneg (by linarith)
        (by nlinarith [mul_nonneg h0 (by linarith : (0:ℚ) ≤ 1 - |t|)])
    nlinarith [hu]
  · split
    · rename_i h1 h2
      exact div_nonneg (pow_nonneg (by linarith) 3) (by norm_num)
    · exact le_refl 0

/-- The cubic B-spline kernel is positive on `|t| ≤ 1/2`. -/
theorem ygl.spline_half_pos (t : ℚ) (ht : |t| ≤ 1/2) :
    0 < ygl.kernelW ygl.resize_filter.cubic_spline t := by
  have h0 := abs_nonneg t
  simp only [ygl.kernelW]
  rw [if_pos (by linarith)]
  nlinarith [mul_nonneg (mul_nonneg h0 h0) h0]

/-- The triangle kernel is positive on `|t| ≤ 1/2`. -/
theorem ygl.triangle_half_pos (t : ℚ) (ht : |t| ≤ 1/2) :
    0 < ygl.kernelW ygl.resize_filter.triangle t := by
  simp only [ygl.kernelW]
  exact lt_max_iff.mpr (Or.inr (by linarith))

/-- The default (triangle) kernel is positive on `|t| ≤ 1/2`. -/
theorem ygl.dflt_half_pos (t : ℚ) (ht : |t| ≤ 1/2) :
    0 < ygl.kernelW ygl.resize_filter.dflt t := by
  simp only [ygl.kernelW]
  exact lt_max_iff.mpr (Or.inr (by linarith))

/-- The box kernel is positive on `|t| ≤ 1/2`. -/
theorem ygl.box_half_pos (t : ℚ) (ht : |t| ≤ 1/2) :
    0 < ygl.kernelW ygl.resize_filter.box t := by
  simp only [ygl.kernelW]
  rw [if_pos ht]
  norm_num

/-- The box kernel is nonnegative everywhere. -/
theorem ygl.box_nonneg (t : ℚ) : 0 ≤ ygl.kernelW ygl.resize_filter.box t := by
  simp only [ygl.kernelW]
  split
  · norm_num
  · exact le_refl 0

/-- The raw kernel weight sum of every output coordinate is positive, for
every kernel tag and every pair of dimensions. -/
theorem ygl.raw_sum_pos (k : ygl.resize_filter) (n m o : ℕ) :
    0 < ygl.sumW (ygl.raw_taps k n m o) := by
  rw [ygl.sumW_raw]
  unfold ygl.tap_lo ygl.tap_hi ygl.tap_at
  have hs : 1 ≤ ygl.filter_scale n m := le_max_left _ _
  cases k
  case dflt =>
    exact ygl.wsum_pos_of_nonneg _ _ _ _ hs (by norm_num [ygl.radius])
      (fun t => le_max_left _ _) ygl.dflt_half_pos
  case box =>
    exact ygl.wsum_pos_of_nonneg _ _ _ _ hs (by norm_num [ygl.radius])
      ygl.box_nonneg ygl.box_half_pos
  case triangle =>
    exact ygl.wsum_pos_of_nonneg _ _ _ _ hs (by norm_num [ygl.radius])
      (fun t => le_max_left _ _) ygl.triangle_half_pos
  case cubic_spline =>
    exact ygl.wsum_pos_of_nonneg _ _ _ _ hs (by norm_num [ygl.radius])
      ygl.spline_nonneg ygl.spline_half_pos
  case catmull_rom =>
    simp only [ygl.radius]
    exact ygl.wsum_pos_of_lobes _ _ _ hs (ygl.kernelW_even _) ygl.cr_vanish
      ygl.cr_core_nonneg ygl.cr_half_pos ygl.cr_D ygl.cr_E
  case mitchell =>
    simp only [ygl.radius]
    exact ygl.wsum_pos_of_lobes _ _ _ hs (ygl.kernelW_even _) ygl.mitchell_vanish
      ygl.mitchell_core_nonneg ygl.mitchell_half_pos ygl.mitchell_D ygl.mitchell_E

/-- Dividing every weight divides the sum. -/
theorem ygl.sumW_map_div (l : List (ℤ × ℚ)) (d : ℚ) :
    ygl.sumW (l.map fun p => (p.1, p.2 / d)) = ygl.sumW l / d := by
  unfold ygl.sumW
  induction l with
  | nil => simp
  | cons a l ih =>
    simp only [List.map_cons, List.sum_cons] at ih ⊢
    rw [ih, add_div]

/-- The normalized weights of every output coordinate sum to exactly one. -/
theorem ygl.sumW_norm (k : ygl.resize_filter) (n m o : ℕ) :
    ygl.sumW (ygl.norm_taps k n m o) = 1 := by
  unfold ygl.norm_taps
  rw [ygl.sumW_map_div, div_self (ne_of_gt (ygl.raw_sum_pos k n m o))]

/-- Remapping tap indices (the clamp/reflect/wrap edge policies) keeps the
weight sum. -/
theorem ygl.sumW_map_fst (l : List (ℤ × ℚ)) (g : ℤ → ℤ) :
    ygl.sumW (l.map fun p => (g p.1, p.2)) = ygl.sumW l := by
  unfold ygl.sumW
  rw [List.map_map]
  congr 1

/-- Dropping entries from a tap list with nonnegative weights cannot
increase the sum. -/
theorem ygl.sumW_filter_le (l : List (ℤ × ℚ)) (pr : ℤ × ℚ → Bool)
    (h : ∀ p ∈ l, 0 ≤ p.2) : ygl.sumW (l.filter pr) ≤ ygl.sumW l := by
  unfold ygl.sumW
  induction l with
  | nil => simp
  | cons a l ih =>
    have ha := h a (List.mem_cons_self a l)
    have ih' := ih fun p hp => h p (List.mem_cons_of_mem a hp)
    by_cases hpa : pr a
    · rw [List.filter_cons_of_pos hpa]
      simp only [List.map_cons, List.sum_cons]
      linarith
    · rw [List.filter_cons_of_neg (by simpa using hpa)]
      simp only [List.map_cons, List.sum_cons]
      linarith

/-- Normalized weights are nonnegative when the kernel is. -/
theorem ygl.norm_weights_nonneg (k : ygl.resize_filter)
    (hk : ∀ t, 0 ≤ ygl.kernelW k t) (n m o : ℕ) :
    ∀ p ∈ ygl.norm_taps k n m o, 0 ≤ p.2 := by
  intro p hp
  unfold ygl.norm_taps at hp
  rw [List.mem_map] at hp
  obtain ⟨q, hq, rfl⟩ := hp
  apply div_nonneg ?_ (le_of_lt (ygl.raw_sum_pos k n m o))
  unfold ygl.raw_taps at hq
  rw [List.mem_map] at hq
  obtain ⟨j, _, rfl⟩ := hq
  unfold ygl.tap_at
  exact hk _

/-- C2 (amended): weight conservation.  Under the clamp, reflect or wrap
edge policy, every output coordinate's weight table sums to exactly 1
(hence within 1e-5 of 1), for every kernel and dimensions.  Under the zero
edge policy the sum is at most 1 for the nonnegative kernels (default,
box, triangle, cubic_spline); for catmull_rom and mitchell a dropped
boundary tap can carry negative weight, making the kept weights sum to
more than 1 (see the counterexample), so the zero-policy bound is
restricted to the nonnegative kernels. -/
theorem C2_weight_conservation_amended :
    (∀ (k : ygl.resize_filter) (e : ygl.resize_edge) (srcDim dstDim o : ℕ),
        0 < srcDim → 0 < dstDim →
        (e = ygl.resize_edge.clamp ∨ e = ygl.resize_edge.reflect ∨
          e = ygl.resize_edge.wrap) →
        |ygl.sumW (ygl.weight_table k e srcDim dstDim o) - 1| ≤ 1/100000) ∧
    (∀ (k : ygl.resize_filter) (srcDim dstDim o : ℕ), 0 < srcDim → 0 < dstDim →
        (k = ygl.resize_filter.dflt ∨ k = ygl.resize_filter.box ∨
          k = ygl.resize_filter.triangle ∨ k = ygl.resize_filter.cubic_spline) →
        ygl.sumW (ygl.weight_table k ygl.resize_edge.zero srcDim dstDim o) ≤ 1) := by
  constructor
  · intro k e n m o _ _ he
    have hsum : ygl.sumW (ygl.weight_table k e n m o) = 1 := by
      rcases he with rfl | rfl | rfl <;>
        · show ygl.sumW ((ygl.norm_taps k n m o).map _) = 1
          rw [ygl.sumW_map_fst, ygl.sumW_norm]
    rw [hsum]
    norm_num
  · intro k n m o _ _ hk
    have hnn : ∀ t, 0 ≤ ygl.kernelW k t := by
      rcases hk with rfl | rfl | rfl | rfl
      · exact fun t => le_max_left _ _
      · exact ygl.box_nonneg
      · exact fun t => le_max_left _ _
      · exact ygl.spline_nonneg
    calc ygl.sumW (ygl.weight_table k ygl.resize_edge.zero n m o)
        ≤ ygl.sumW (ygl.norm_taps k n m o) :=
          ygl.sumW_filter_le _ _ (ygl.norm_weights_nonneg k hnn n m o)
      _ = 1 := ygl.sumW_norm k n m o

/-- C2 witness: concrete conservation facts - the triangle/clamp table of
output 1 when resizing width 4 to 4 sums to 1 within tolerance, and a
concrete zero-policy triangle table sums to at most 1. -/
theorem C2_weight_conservation_amended_witness :
    |ygl.sumW (ygl.weight_table ygl.resize_filter.triangle ygl.resize_edge.clamp 4 4 1) - 1| ≤
        1/100000 ∧
    ygl.sumW (ygl.weight_table ygl.resize_filter.triangle ygl.resize_edge.zero 4 6 0) ≤ 1 :=
  ⟨C2_weight_conservation_amended.1 ygl.resize_filter.triangle ygl.resize_edge.clamp 4 4 1
      (by norm_num) (by norm_num) (Or.inl rfl),
    C2_weight_conservation_amended.2 ygl.resize_filter.triangle 4 6 0
      (by norm_num) (by norm_num) (Or.inr (Or.inr (Or.inl rfl)))⟩

/-- C2 counterexample: for the Catmull-Rom kernel under the zero edge
policy, the weight table of output coordinate 1 when resizing width 4 to
width 6 sums to 17/16 > 1: the dropped out-of-range tap carried negative
weight (-1/16), so the claim's "zero policy sums ≤ 1" fails as stated. -/
theorem C2_zero_policy_counterexample :
    ygl.sumW (ygl.weight_table ygl.resize_filter.catmull_rom ygl.resize_edge.zero 4 6 1) =
      17/16 ∧
    ¬ ygl.sumW (ygl.weight_table ygl.resize_filter.catmull_rom ygl.resize_edge.zero 4 6 1) ≤
      1 := by
  have hlo : ygl.tap_lo ygl.resize_filter.catmull_rom 4 6 1 = -1 := by
    have h : ygl.sample_center 4 6 1 - ygl.radius ygl.resize_filter.catmull_rom *
        ygl.filter_scale 4 6 = -(3/2) := by
      norm_num [ygl.sample_center, ygl.filter_scale, ygl.radius]
    rw [ygl.tap_lo, h, Int.ceil_eq_iff]
    norm_num
  have hhi : ygl.tap_hi ygl.resize_filter.catmull_rom 4 6 1 = 2 := by
    have h : ygl.sample_center 4 6 1 + ygl.radius ygl.resize_filter.catmull_rom *
        ygl.filter_scale 4 6 = 5/2 := by
      norm_num [ygl.sample_center, ygl.filter_scale, ygl.radius]
    rw [ygl.tap_hi, h, Int.floor_eq_iff]
    norm_num
  have hraw : ygl.raw_taps ygl.resize_filter.catmull_rom 4 6 1 =
      [(-1, -(1/16)), (0, 9/16), (1, 9/16), (2, -(1/16))] := by
    unfold ygl.raw_taps
    rw [hlo, hhi, show ((2 : ℤ) + 1 - (-1)).toNat = 4 from by decide]
    rw [show (4 : ℕ) = 3 + 1 from rfl, List.range_succ]
    rw [show (3 : ℕ) = 2 + 1 from rfl, List.range_succ]
    rw [show (2 : ℕ) = 1 + 1 from rfl, List.range_succ]
    rw [show (1 : ℕ) = 0 + 1 from rfl, List.range_succ, List.range_zero]
    simp only [List.nil_append, List.cons_append, List.map_cons, List.map_nil]
    norm_num [ygl.tap_at, ygl.sample_center, ygl.filter_scale, ygl.kernelW,
      abs_of_pos, abs_of_neg, abs_of_nonneg]
  have hsum : ygl.sumW (ygl.raw_taps ygl.resize_filter.catmull_rom 4 6 1) = 1 := by
    rw [hraw]
    norm_num [ygl.sumW]
  have hnorm : ygl.norm_taps ygl.resize_filter.catmull_rom 4 6 1 =
      [(-1, -(1/16)), (0, 9/16), (1, 9/16), (2, -(1/16))] := by
    unfold ygl.norm_taps
    rw [hsum, hraw]
    norm_num
  have heq : ygl.sumW (ygl.weight_table ygl.resize_filter.catmull_rom
      ygl.resize_edge.zero 4 6 1) = 17/16 := by
    show ygl.sumW ((ygl.norm_taps ygl.resize_filter.catmull_rom 4 6 1).filter _) = 17/16
    rw [hnorm]
    norm_num [List.filter, ygl.sumW]
  refine ⟨heq, ?_⟩
  rw [heq]
  norm_num


theorem ygl.center_self (n o : ℕ) (hn : 0 < n) : ygl.sample_center n n o = o := by
  have hn' : ((n : ℚ)) ≠ 0 := Nat.cast_ne_zero.mpr hn.ne'
  unfold ygl.sample_center
  rw [mul_div_assoc, div_self hn', mul_one]
  ring

theorem ygl.scale_self (n : ℕ) (hn : 0 < n) : ygl.filter_scale n n = 1 := by
  have hn' : ((n : ℚ)) ≠ 0 := Nat.cast_ne_zero.mpr hn.ne'
  unfold ygl.filter_scale
  rw [div_self hn', max_self]

theorem ygl.clamp_resolve_self (n : ℕ) (o : ℕ) (ho : o < n) :
    ygl.resolve_edge ygl.resize_edge.clamp n (o : ℤ) = (o : ℤ) := by
  simp only [ygl.resolve_edge]
  omega

theorem ygl.tri_taps_id (n o : ℕ) (hn : 0 < n) :
    ygl.raw_taps ygl.resize_filter.triangle n n o =
      [((o : ℤ) - 1, 0), ((o : ℤ), 1), ((o : ℤ) + 1, 0)] := by
  have hc := ygl.center_self n o hn
  have hs := ygl.scale_self n hn
  have hlo : ygl.tap_lo ygl.resize_filter.triangle n n o = (o : ℤ) - 1 := by
    rw [ygl.tap_lo, hc, hs]
    rw [show (o : ℚ) - ygl.radius ygl.resize_filter.triangle * 1 = (((o : ℤ) - 1 : ℤ) : ℚ) from by
      push_cast
      norm_num [ygl.radius]]
    exact Int.ceil_intCast _
  have hhi : ygl.tap_hi ygl.resize_filter.triangle n n o = (o : ℤ) + 1 := by
    rw [ygl.tap_hi, hc, hs]
    rw [show (o : ℚ) + ygl.radius ygl.resize_filter.triangle * 1 = (((o : ℤ) + 1 : ℤ) : ℚ) from by
      push_cast
      norm_num [ygl.radius]]
    exact Int.floor_intCast _
  unfold ygl.raw_taps
  rw [hlo, hhi, show ((o : ℤ) + 1 + 1 - ((o : ℤ) - 1)).toNat = 3 from by omega]
  rw [show (3 : ℕ) = 2 + 1 from rfl, List.range_succ]
  rw [show (2 : ℕ) = 1 + 1 from rfl, List.range_succ]
  rw [show (1 : ℕ) = 0 + 1 from rfl, List.range_succ, List.range_zero]
  simp only [List.nil_append, List.cons_append, List.map_cons, List.map_nil,
    ygl.tap_at, hc, hs, ygl.kernelW, List.cons.injEq, Prod.mk.injEq, List.map_nil]
  norm_num
  constructor
  · omega
  · rw [show (o : ℚ) - ((o : ℚ) - 1 + 2) = -1 from by ring]
    norm_num

theorem ygl.dflt_taps_id (n o : ℕ) (hn : 0 < n) :
    ygl.raw_taps ygl.resize_filter.dflt n n o =
      [((o : ℤ) - 1, 0), ((o : ℤ), 1), ((o : ℤ) + 1, 0)] := by
  have hc := ygl.center_self n o hn
  have hs := ygl.scale_self n hn
  have hlo : ygl.tap_lo ygl.resize_filter.dflt n n o = (o : ℤ) - 1 := by
    rw [ygl.tap_lo, hc, hs]
    rw [show (o : ℚ) - ygl.radius ygl.resize_filter.dflt * 1 = (((o : ℤ) - 1 : ℤ) : ℚ) from by
      push_cast
      norm_num [ygl.radius]]
    exact Int.ceil_intCast _
  have hhi : ygl.tap_hi ygl.resize_filter.dflt n n o = (o : ℤ) + 1 := by
    rw [ygl.tap_hi, hc, hs]
    rw [show (o : ℚ) + ygl.radius ygl.resize_filter.dflt * 1 = (((o : ℤ) + 1 : ℤ) : ℚ) from by
      push_cast
      norm_num [ygl.radius]]
    exact Int.floor_intCast _
  unfold ygl.raw_taps
  rw [hlo, hhi, show ((o : ℤ) + 1 + 1 - ((o : ℤ) - 1)).toNat = 3 from by omega]
  rw [show (3 : ℕ) = 2 + 1 from rfl, List.range_succ]
  rw [show (2 : ℕ) = 1 + 1 from rfl, List.range_succ]
  rw [show (1 : ℕ) = 0 + 1 from rfl, List.range_succ, List.range_zero]
  simp only [List.nil_append, List.cons_append, List.map_cons, List.map_nil,
    ygl.tap_at, hc, hs, ygl.kernelW, List.cons.injEq, Prod.mk.injEq, List.map_nil]
  norm_num
  constructor
  · omega
  · rw [show (o : ℚ) - ((o : ℚ) - 1 + 2) = -1 from by ring]
    norm_num

theorem ygl.box_taps_id (n o : ℕ) (hn : 0 < n) :
    ygl.raw_taps ygl.resize_filter.box n n o = [((o : ℤ), 1)] := by
  have hc := ygl.center_self n o hn
  have hs := ygl.scale_self n hn
  have hlo : ygl.tap_lo ygl.resize_filter.box n n o = (o : ℤ) := by
    rw [ygl.tap_lo, hc, hs]
    rw [show (o : ℚ) - ygl.radius ygl.resize_filter.box * 1 = (o : ℚ) - 1/2 from by
      norm_num [ygl.radius]]
    rw [Int.ceil_eq_iff]
    constructor
    · push_cast
      linarith
    · push_cast
      linarith
  have hhi : ygl.tap_hi ygl.resize_filter.box n n o = (o : ℤ) := by
    rw [ygl.tap_hi, hc, hs]
    rw [show (o : ℚ) + ygl.radius ygl.resize_filter.box * 1 = (o : ℚ) + 1/2 from by
      norm_num [ygl.radius]]
    rw [Int.floor_eq_iff]
    constructor
    · push_cast
      linarith
    · push_cast
      linarith
  unfold ygl.raw_taps
  rw [hlo, hhi, show ((o : ℤ) + 1 - (o : ℤ)).toNat = 1 from by omega]
  rw [show (1 : ℕ) = 0 + 1 from rfl, List.range_succ, List.range_zero]
  simp only [List.nil_append, List.cons_append, List.map_cons, List.map_nil,
    ygl.tap_at, hc, hs, ygl.kernelW, List.cons.injEq, Prod.mk.injEq]
  norm_num

theorem ygl.cr_taps_id (n o : ℕ) (hn : 0 < n) :
    ygl.raw_taps ygl.resize_filter.catmull_rom n n o =
      [((o : ℤ) - 2, 0), ((o : ℤ) - 1, 0), ((o : ℤ), 1), ((o : ℤ) + 1, 0), ((o : ℤ) + 2, 0)] := by
  have hc := ygl.center_self n o hn
  have hs := ygl.scale_self n hn
  have hlo : ygl.tap_lo ygl.resize_filter.catmull_rom n n o = (o : ℤ) - 2 := by
    rw [ygl.tap_lo, hc, hs]
    rw [show (o : ℚ) - ygl.radius ygl.resize_filter.catmull_rom * 1 = (((o : ℤ) - 2 : ℤ) : ℚ) from by
      push_cast
      norm_num [ygl.radius]]
    exact Int.ceil_intCast _
  have hhi : ygl.tap_hi ygl.resize_filter.catmull_rom n n o = (o : ℤ) + 2 := by
    rw [ygl.tap_hi, hc, hs]
    rw [show (o : ℚ) + ygl.radius ygl.resize_filter.catmull_rom * 1 = (((o : ℤ) + 2 : ℤ) : ℚ) from by
      push_cast
      norm_num [ygl.radius]]
    exact Int.floor_intCast _
  unfold ygl.raw_taps
  rw [hlo, hhi, show ((o : ℤ) + 2 + 1 - ((o : ℤ) - 2)).toNat = 5 from by omega]
  rw [show (5 : ℕ) = 4 + 1 from rfl, List.range_succ]
  rw [show (4 : ℕ) = 3 + 1 from rfl, List.range_succ]
  rw [show (3 : ℕ) = 2 + 1 from rfl, List.range_succ]
  rw [show (2 : ℕ) = 1 + 1 from rfl, List.range_succ]
  rw [show (1 : ℕ) = 0 + 1 from rfl, List.range_succ, List.range_zero]
  simp only [List.nil_append, List.cons_append, List.map_cons, List.map_nil,
    ygl.tap_at, hc, hs, ygl.kernelW, List.cons.injEq, Prod.mk.injEq]
  norm_num
  refine ⟨⟨by omega, ?_⟩, ⟨by omega, ?_⟩, by omega, ?_⟩
  · rw [show (o : ℚ) - ((o : ℚ) - 2 + 1) = 1 from by ring]
    norm_num
  · rw [show (o : ℚ) - ((o : ℚ) - 2 + 3) = -1 from by ring]
    norm_num
  · rw [show (o : ℚ) - ((o : ℚ) - 2 + 4) = -2 from by ring]
    norm_num

theorem ygl.norm_taps_eq_raw (k : ygl.resize_filter) (n m o : ℕ)
    (h1 : ygl.sumW (ygl.raw_taps k n m o) = 1) :
    ygl.norm_taps k n m o = ygl.raw_taps k n m o := by
  unfold ygl.norm_taps
  rw [h1]
  simp [div_one]

theorem ygl.vec4f_ext (a b : ygl.vec4f) (hx : a.x = b.x) (hy : a.y = b.y)
    (hz : a.z = b.z) (hw : a.w = b.w) : a = b := by
  cases a
  cases b
  simp_all

theorem ygl.applyTaps_id1 (i : ℤ) (f : ℤ → ygl.vec4f) :
    ygl.applyTaps [(i, 1)] f = f i := by
  apply ygl.vec4f_ext <;> simp [ygl.applyTaps, ygl.vadd, ygl.vsmul, ygl.vzero]

theorem ygl.applyTaps_id3 (a b i : ℤ) (f : ℤ → ygl.vec4f) :
    ygl.applyTaps [(a, 0), (i, 1), (b, 0)] f = f i := by
  apply ygl.vec4f_ext <;> simp [ygl.applyTaps, ygl.vadd, ygl.vsmul, ygl.vzero]

theorem ygl.applyTaps_id5 (a b c d i : ℤ) (f : ℤ → ygl.vec4f) :
    ygl.applyTaps [(a, 0), (b, 0), (i, 1), (c, 0), (d, 0)] f = f i := by
  apply ygl.vec4f_ext <;> simp [ygl.applyTaps, ygl.vadd, ygl.vsmul, ygl.vzero]

theorem ygl.applyTaps_table_id (k : ygl.resize_filter)
    (hk : k = ygl.resize_filter.dflt ∨ k = ygl.resize_filter.box ∨
      k = ygl.resize_filter.triangle ∨ k = ygl.resize_filter.catmull_rom)
    (n o : ℕ) (hn : 0 < n) (ho : o < n) (f : ℤ → ygl.vec4f) :
    ygl.applyTaps (ygl.weight_table k ygl.resize_edge.clamp n n o) f = f (o : ℤ) := by
  have hres := ygl.clamp_resolve_self n o ho
  rcases hk with rfl | rfl | rfl | rfl
  · have hraw := ygl.dflt_taps_id n o hn
    have hsum : ygl.sumW (ygl.raw_taps ygl.resize_filter.dflt n n o) = 1 := by
      rw [hraw]
      norm_num [ygl.sumW]
    show ygl.applyTaps ((ygl.norm_taps ygl.resize_filter.dflt n n o).map _) f = f (o : ℤ)
    rw [ygl.norm_taps_eq_raw _ _ _ _ hsum, hraw]
    simp only [List.map_cons, List.map_nil]
    rw [hres]
    exact ygl.applyTaps_id3 _ _ _ f
  · have hraw := ygl.box_taps_id n o hn
    have hsum : ygl.sumW (ygl.raw_taps ygl.resize_filter.box n n o) = 1 := by
      rw [hraw]
      norm_num [ygl.sumW]
    show ygl.applyTaps ((ygl.norm_taps ygl.resize_filter.box n n o).map _) f = f (o : ℤ)
    rw [ygl.norm_taps_eq_raw _ _ _ _ hsum, hraw]
    simp only [List.map_cons, List.map_nil]
    rw [hres]
    exact ygl.applyTaps_id1 _ f
  · have hraw := ygl.tri_taps_id n o hn
    have hsum : ygl.sumW (ygl.raw_taps ygl.resize_filter.triangle n n o) = 1 := by
      rw [hraw]
      norm_num [ygl.sumW]
    show ygl.applyTaps ((ygl.norm_taps ygl.resize_filter.triangle n n o).map _) f = f (o : ℤ)
    rw [ygl.norm_taps_eq_raw _ _ _ _ hsum, hraw]
    simp only [List.map_cons, List.map_nil]
    rw [hres]
    exact ygl.applyTaps_id3 _ _ _ f
  · have hraw := ygl.cr_taps_id n o hn
    have hsum : ygl.sumW (ygl.raw_taps ygl.resize_filter.catmull_rom n n o) = 1 := by
      rw [hraw]
      norm_num [ygl.sumW]
    show ygl.applyTaps ((ygl.norm_taps ygl.resize_filter.catmull_rom n n o).map _) f =
      f (o : ℤ)
    rw [ygl.norm_taps_eq_raw _ _ _ _ hsum, hraw]
    simp only [List.map_cons, List.map_nil]
    rw [hres]
    exact ygl.applyTaps_id5 _ _ _ _ _ f

theorem ygl.hpass_id (k : ygl.resize_filter)
    (hk : k = ygl.resize_filter.dflt ∨ k = ygl.resize_filter.box ∨
      k = ygl.resize_filter.triangle ∨ k = ygl.resize_filter.catmull_rom)
    (W H : ℕ) (hW : 0 < W) (img : List ygl.vec4f) (hlen : img.length = H * W) :
    ygl.hpass k ygl.resize_edge.clamp W W H img = img := by
  unfold ygl.hpass
  apply List.ext_getElem
  · simp [hlen]
  · intro i h1 h2
    simp only [List.getElem_map, List.getElem_range]
    rw [ygl.applyTaps_table_id k hk W (i % W) hW (Nat.mod_lt _ hW)]
    rw [if_pos ⟨Int.natCast_nonneg _, by exact_mod_cast Nat.mod_lt i hW⟩]
    rw [Int.toNat_natCast, Nat.div_add_mod']
    exact List.getD_eq_getElem img ygl.vzero h2

theorem ygl.vpass_id (k : ygl.resize_filter)
    (hk : k = ygl.resize_filter.dflt ∨ k = ygl.resize_filter.box ∨
      k = ygl.resize_filter.triangle ∨ k = ygl.resize_filter.catmull_rom)
    (W H : ℕ) (hW : 0 < W) (hH : 0 < H) (buf : List ygl.vec4f)
    (hlen : buf.length = H * W) :
    ygl.vpass k ygl.resize_edge.clamp H H W buf = buf := by
  unfold ygl.vpass
  apply List.ext_getElem
  · simp [hlen]
  · intro i h1 h2
    simp only [List.getElem_map, List.getElem_range]
    have hdiv : i / W < H := by
      rw [Nat.div_lt_iff_lt_mul hW]
      rw [hlen] at h2
      exact h2
    rw [ygl.applyTaps_table_id k hk H (i / W) hH hdiv]
    rw [if_pos ⟨Int.natCast_nonneg _, by exact_mod_cast hdiv⟩]
    rw [Int.toNat_natCast, Nat.div_add_mod']
    exact List.getD_eq_getElem buf ygl.vzero h2

theorem ygl.unpremult_premult (p : ygl.vec4f) (hp : p.w ≠ 0) :
    ygl.unpremult (ygl.premult p) = p := by
  unfold ygl.unpremult ygl.premult
  rw [if_neg hp]
  apply ygl.vec4f_ext <;> simp <;> field_simp

/-- C1 (amended): resizing an image to its own dimensions is the identity for
the interpolating kernels (default, box, triangle, catmull_rom) under the
clamp edge policy, provided the buffer is premultiplied or no pixel has zero
alpha; the smoothing kernels (cubic_spline, mitchell) and zero-alpha pixels
with premultiplied_alpha = false are genuine exceptions. -/
theorem C1_resize_identity_amended (w h : ℤ) (img : List ygl.vec4f)
    (k : ygl.resize_filter) (pm : Bool) (hw : 0 < w) (hh : 0 < h)
    (hlen : (img.length : ℤ) = w * h)
    (hk : k = ygl.resize_filter.dflt ∨ k = ygl.resize_filter.box ∨
      k = ygl.resize_filter.triangle ∨ k = ygl.resize_filter.catmull_rom)
    (hpm : pm = true ∨ ∀ p ∈ img, p.w ≠ 0) :
    ygl.resize_image w h img w h k ygl.resize_edge.clamp pm = Except.ok img := by
  obtain ⟨W, rfl⟩ := Int.eq_ofNat_of_zero_le hw.le
  obtain ⟨H, rfl⟩ := Int.eq_ofNat_of_zero_le hh.le
  have hW : 0 < W := by exact_mod_cast hw
  have hH : 0 < H := by exact_mod_cast hh
  have hlen' : img.length = H * W := by
    have : (img.length : ℤ) = ((W * H : ℕ) : ℤ) := by
      push_cast
      linarith [hlen]
    have h2 : img.length = W * H := by exact_mod_cast this
    rw [h2, Nat.mul_comm]
  unfold ygl.resize_image
  rw [if_neg (by omega), if_neg (by omega), if_neg (not_not_intro hlen)]
  have htn : ((W : ℤ)).toNat = W := by omega
  have htn2 : ((H : ℤ)).toNat = H := by omega
  rw [htn, htn2]
  cases pm
  · -- premultiplied_alpha = false
    have hpm' : ∀ p ∈ img, p.w ≠ 0 := by
      rcases hpm with hcon | hgood
      · exact absurd hcon (by simp)
      · exact hgood
    simp only [Bool.false_eq_true, if_false]
    rw [ygl.hpass_id k hk W H hW (img.map ygl.premult) (by simp [hlen'])]
    rw [ygl.vpass_id k hk W H hW hH (img.map ygl.premult) (by simp [hlen'])]
    rw [List.map_map]
    congr 1
    rw [show ygl.unpremult ∘ ygl.premult = fun p => ygl.unpremult (ygl.premult p) from rfl]
    rw [List.map_congr_left fun p hp => ygl.unpremult_premult p (hpm' p hp)]
    exact List.map_id img
  · -- premultiplied_alpha = true
    simp only [if_true]
    rw [ygl.hpass_id k hk W H hW img hlen', ygl.vpass_id k hk W H hW hH img hlen']

theorem ygl.spline_tbl0 :
    ygl.weight_table ygl.resize_filter.cubic_spline ygl.resize_edge.clamp 2 2 0 =
      [(0, 0), (0, 1/6), (0, 2/3), (1, 1/6), (1, 0)] := by
  have c0 : ygl.sample_center 2 2 0 = 0 := by norm_num [ygl.sample_center]
  have s22 : ygl.filter_scale 2 2 = 1 := by norm_num [ygl.filter_scale]
  have lo0 : ygl.tap_lo ygl.resize_filter.cubic_spline 2 2 0 = -2 := by
    rw [ygl.tap_lo, c0, s22]
    rw [show (0 : ℚ) - ygl.radius ygl.resize_filter.cubic_spline * 1 = ((-2 : ℤ) : ℚ) from by
      norm_num [ygl.radius]]
    exact Int.ceil_intCast _
  have hi0 : ygl.tap_hi ygl.resize_filter.cubic_spline 2 2 0 = 2 := by
    rw [ygl.tap_hi, c0, s22]
    rw [show (0 : ℚ) + ygl.radius ygl.resize_filter.cubic_spline * 1 = ((2 : ℤ) : ℚ) from by
      norm_num [ygl.radius]]
    exact Int.floor_intCast _
  have raw0 : ygl.raw_taps ygl.resize_filter.cubic_spline 2 2 0 =
      [(-2, 0), (-1, 1/6), (0, 2/3), (1, 1/6), (2, 0)] := by
    unfold ygl.raw_taps
    rw [lo0, hi0, show ((2 : ℤ) + 1 - (-2)).toNat = 5 from by decide]
    rw [show (5 : ℕ) = 4 + 1 from rfl, List.range_succ]
    rw [show (4 : ℕ) = 3 + 1 from rfl, List.range_succ]
    rw [show (3 : ℕ) = 2 + 1 from rfl, List.range_succ]
    rw [show (2 : ℕ) = 1 + 1 from rfl, List.range_succ]
    rw [show (1 : ℕ) = 0 + 1 from rfl, List.range_succ, List.range_zero]
    simp only [List.nil_append, List.cons_append, List.map_cons, List.map_nil]
    norm_num [ygl.tap_at, c0, s22, ygl.kernelW, abs_of_pos, abs_of_neg, abs_of_nonneg]
  have sum0 : ygl.sumW (ygl.raw_taps ygl.resize_filter.cubic_spline 2 2 0) = 1 := by
    rw [raw0]
    norm_num [ygl.sumW]
  show (ygl.norm_taps ygl.resize_filter.cubic_spline 2 2 0).map _ = _
  rw [ygl.norm_taps_eq_raw _ _ _ _ sum0, raw0]
  simp only [List.map_cons, List.map_nil, ygl.resolve_edge]
  norm_num

theorem ygl.spline_tbl1 :
    ygl.weight_table ygl.resize_filter.cubic_spline ygl.resize_edge.clamp 2 2 1 =
      [(0, 0), (0, 1/6), (1, 2/3), (1, 1/6), (1, 0)] := by
  have c1 : ygl.sample_center 2 2 1 = 1 := by norm_num [ygl.sample_center]
  have s22 : ygl.filter_scale 2 2 = 1 := by norm_num [ygl.filter_scale]
  have lo1 : ygl.tap_lo ygl.resize_filter.cubic_spline 2 2 1 = -1 := by
    rw [ygl.tap_lo, c1, s22]
    rw [show (1 : ℚ) - ygl.radius ygl.resize_filter.cubic_spline * 1 = ((-1 : ℤ) : ℚ) from by
      norm_num [ygl.radius]]
    exact Int.ceil_intCast _
  have hi1 : ygl.tap_hi ygl.resize_filter.cubic_spline 2 2 1 = 3 := by
    rw [ygl.tap_hi, c1, s22]
    rw [show (1 : ℚ) + ygl.radius ygl.resize_filter.cubic_spline * 1 = ((3 : ℤ) : ℚ) from by
      norm_num [ygl.radius]]
    exact Int.floor_intCast _
  have raw1 : ygl.raw_taps ygl.resize_filter.cubic_spline 2 2 1 =
      [(-1, 0), (0, 1/6), (1, 2/3), (2, 1/6), (3, 0)] := by
    unfold ygl.raw_taps
    rw [lo1, hi1, show ((3 : ℤ) + 1 - (-1)).toNat = 5 from by decide]
    rw [show (5 : ℕ) = 4 + 1 from rfl, List.range_succ]
    rw [show (4 : ℕ) = 3 + 1 from rfl, List.range_succ]
    rw [show (3 : ℕ) = 2 + 1 from rfl, List.range_succ]
    rw [show (2 : ℕ) = 1 + 1 from rfl, List.range_succ]
    rw [show (1 : ℕ) = 0 + 1 from rfl, List.range_succ, List.range_zero]
    simp only [List.nil_append, List.cons_append, List.map_cons, List.map_nil]
    norm_num [ygl.tap_at, c1, s22, ygl.kernelW, abs_of_pos, abs_of_neg, abs_of_nonneg]
  have sum1 : ygl.sumW (ygl.raw_taps ygl.resize_filter.cubic_spline 2 2 1) = 1 := by
    rw [raw1]
    norm_num [ygl.sumW]
  show (ygl.norm_taps ygl.resize_filter.cubic_spline 2 2 1).map _ = _
  rw [ygl.norm_taps_eq_raw _ _ _ _ sum1, raw1]
  simp only [List.map_cons, List.map_nil, ygl.resolve_edge]
  norm_num

theorem ygl.spline_tblv :
    ygl.weight_table ygl.resize_filter.cubic_spline ygl.resize_edge.clamp 1 1 0 =
      [(0, 0), (0, 1/6), (0, 2/3), (0, 1/6), (0, 0)] := by
  have c0 : ygl.sample_center 1 1 0 = 0 := by norm_num [ygl.sample_center]
  have s11 : ygl.filter_scale 1 1 = 1 := by norm_num [ygl.filter_scale]
  have lo0 : ygl.tap_lo ygl.resize_filter.cubic_spline 1 1 0 = -2 := by
    rw [ygl.tap_lo, c0, s11]
    rw [show (0 : ℚ) - ygl.radius ygl.resize_filter.cubic_spline * 1 = ((-2 : ℤ) : ℚ) from by
      norm_num [ygl.radius]]
    exact Int.ceil_intCast _
  have hi0 : ygl.tap_hi ygl.resize_filter.cubic_spline 1 1 0 = 2 := by
    rw [ygl.tap_hi, c0, s11]
    rw [show (0 : ℚ) + ygl.radius ygl.resize_filter.cubic_spline * 1 = ((2 : ℤ) : ℚ) from by
      norm_num [ygl.radius]]
    exact Int.floor_intCast _
  have raw0 : ygl.raw_taps ygl.resize_filter.cubic_spline 1 1 0 =
      [(-2, 0), (-1, 1/6), (0, 2/3), (1, 1/6), (2, 0)] := by
    unfold ygl.raw_taps
    rw [lo0, hi0, show ((2 : ℤ) + 1 - (-2)).toNat = 5 from by decide]
    rw [show (5 : ℕ) = 4 + 1 from rfl, List.range_succ]
    rw [show (4 : ℕ) = 3 + 1 from rfl, List.range_succ]
    rw [show (3 : ℕ) = 2 + 1 from rfl, List.range_succ]
    rw [show (2 : ℕ) = 1 + 1 from rfl, List.range_succ]
    rw [show (1 : ℕ) = 0 + 1 from rfl, List.range_succ, List.range_zero]
    simp only [List.nil_append, List.cons_append, List.map_cons, List.map_nil]
    norm_num [ygl.tap_at, c0, s11, ygl.kernelW, abs_of_pos, abs_of_neg, abs_of_nonneg]
  have sum0 : ygl.sumW (ygl.raw_taps ygl.resize_filter.cubic_spline 1 1 0) = 1 := by
    rw [raw0]
    norm_num [ygl.sumW]
  show (ygl.norm_taps ygl.resize_filter.cubic_spline 1 1 0).map _ = _
  rw [ygl.norm_taps_eq_raw _ _ _ _ sum0, raw0]
  simp only [List.map_cons, List.map_nil, ygl.resolve_edge]
  norm_num

/-- Concrete evaluation: same-size cubic-B-spline resize of a 2x1 image
blurs the pixels. -/
theorem ygl.spline_blur :
    ygl.resize_image 2 1 [⟨0,0,0,1⟩, ⟨6,6,6,1⟩] 2 1 ygl.resize_filter.cubic_spline
        ygl.resize_edge.clamp true =
      Except.ok [⟨1,1,1,1⟩, ⟨5,5,5,1⟩] := by
  unfold ygl.resize_image
  rw [if_neg (by norm_num), if_neg (by norm_num), if_neg (by norm_num)]
  rw [if_pos rfl]
  have hh : ygl.hpass ygl.resize_filter.cubic_spline ygl.resize_edge.clamp 2 2 1
      [⟨0,0,0,1⟩, ⟨6,6,6,1⟩] = [⟨1,1,1,1⟩, ⟨5,5,5,1⟩] := by
    unfold ygl.hpass
    rw [show (1 * 2 : ℕ) = 0 + 1 + 1 from rfl, List.range_succ, List.range_succ,
      List.range_zero]
    simp only [List.nil_append, List.cons_append, List.map_cons, List.map_nil]
    norm_num
    rw [ygl.spline_tbl0, ygl.spline_tbl1]
    constructor
    · apply ygl.vec4f_ext <;>
        norm_num [ygl.applyTaps, ygl.vadd, ygl.vsmul, ygl.vzero, List.getD]
    · apply ygl.vec4f_ext <;>
        norm_num [ygl.applyTaps, ygl.vadd, ygl.vsmul, ygl.vzero, List.getD]
  rw [show ((2 : ℤ)).toNat = 2 from rfl, show ((1 : ℤ)).toNat = 1 from rfl, hh]
  have hv : ygl.vpass ygl.resize_filter.cubic_spline ygl.resize_edge.clamp 1 1 2
      [⟨1,1,1,1⟩, ⟨5,5,5,1⟩] = [⟨1,1,1,1⟩, ⟨5,5,5,1⟩] := by
    unfold ygl.vpass
    rw [show (1 * 2 : ℕ) = 0 + 1 + 1 from rfl, List.range_succ, List.range_succ,
      List.range_zero]
    simp only [List.nil_append, List.cons_append, List.map_cons, List.map_nil]
    norm_num
    rw [ygl.spline_tblv]
    constructor
    · apply ygl.vec4f_ext <;>
        norm_num [ygl.applyTaps, ygl.vadd, ygl.vsmul, ygl.vzero, List.getD]
    · apply ygl.vec4f_ext <;>
        norm_num [ygl.applyTaps, ygl.vadd, ygl.vsmul, ygl.vzero, List.getD]
  rw [hv]

theorem ygl.mitchell_tbl0 :
    ygl.weight_table ygl.resize_filter.mitchell ygl.resize_edge.clamp 2 2 0 =
      [(0, 0), (0, 1/18), (0, 8/9), (1, 1/18), (1, 0)] := by
  have c0 : ygl.sample_center 2 2 0 = 0 := by norm_num [ygl.sample_center]
  have s22 : ygl.filter_scale 2 2 = 1 := by norm_num [ygl.filter_scale]
  have lo0 : ygl.tap_lo ygl.resize_filter.mitchell 2 2 0 = -2 := by
    rw [ygl.tap_lo, c0, s22]
    rw [show (0 : ℚ) - ygl.radius ygl.resize_filter.mitchell * 1 = ((-2 : ℤ) : ℚ) from by
      norm_num [ygl.radius]]
    exact Int.ceil_intCast _
  have hi0 : ygl.tap_hi ygl.resize_filter.mitchell 2 2 0 = 2 := by
    rw [ygl.tap_hi, c0, s22]
    rw [show (0 : ℚ) + ygl.radius ygl.resize_filter.mitchell * 1 = ((2 : ℤ) : ℚ) from by
      norm_num [ygl.radius]]
    exact Int.floor_intCast _
  have raw0 : ygl.raw_taps ygl.resize_filter.mitchell 2 2 0 =
      [(-2, 0), (-1, 1/18), (0, 8/9), (1, 1/18), (2, 0)] := by
    unfold ygl.raw_taps
    rw [lo0, hi0, show ((2 : ℤ) + 1 - (-2)).toNat = 5 from by decide]
    rw [show (5 : ℕ) = 4 + 1 from rfl, List.range_succ]
    rw [show (4 : ℕ) = 3 + 1 from rfl, List.range_succ]
    rw [show (3 : ℕ) = 2 + 1 from rfl, List.range_succ]
    rw [show (2 : ℕ) = 1 + 1 from rfl, List.range_succ]
    rw [show (1 : ℕ) = 0 + 1 from rfl, List.range_succ, List.range_zero]
    simp only [List.nil_append, List.cons_append, List.map_cons, List.map_nil]
    norm_num [ygl.tap_at, c0, s22, ygl.kernelW, abs_of_pos, abs_of_neg, abs_of_nonneg]
  have sum0 : ygl.sumW (ygl.raw_taps ygl.resize_filter.mitchell 2 2 0) = 1 := by
    rw [raw0]
    norm_num [ygl.sumW]
  show (ygl.norm_taps ygl.resize_filter.mitchell 2 2 0).map _ = _
  rw [ygl.norm_taps_eq_raw _ _ _ _ sum0, raw0]
  simp only [List.map_cons, List.map_nil, ygl.resolve_edge]
  norm_num

theorem ygl.mitchell_tbl1 :
    ygl.weight_table ygl.resize_filter.mitchell ygl.resize_edge.clamp 2 2 1 =
      [(0, 0), (0, 1/18), (1, 8/9), (1, 1/18), (1, 0)] := by
  have c1 : ygl.sample_center 2 2 1 = 1 := by norm_num [ygl.sample_center]
  have s22 : ygl.filter_scale 2 2 = 1 := by norm_num [ygl.filter_scale]
  have lo1 : ygl.tap_lo ygl.resize_filter.mitchell 2 2 1 = -1 := by
    rw [ygl.tap_lo, c1, s22]
    rw [show (1 : ℚ) - ygl.radius ygl.resize_filter.mitchell * 1 = ((-1 : ℤ) : ℚ) from by
      norm_num [ygl.radius]]
    exact Int.ceil_intCast _
  have hi1 : ygl.tap_hi ygl.resize_filter.mitchell 2 2 1 = 3 := by
    rw [ygl.tap_hi, c1, s22]
    rw [show (1 : ℚ) + ygl.radius ygl.resize_filter.mitchell * 1 = ((3 : ℤ) : ℚ) from by
      norm_num [ygl.radius]]
    exact Int.floor_intCast _
  have raw1 : ygl.raw_taps ygl.resize_filter.mitchell 2 2 1 =
      [(-1, 0), (0, 1/18), (1, 8/9), (2, 1/18), (3, 0)] := by
    unfold ygl.raw_taps
    rw [lo1, hi1, show ((3 : ℤ) + 1 - (-1)).toNat = 5 from by decide]
    rw [show (5 : ℕ) = 4 + 1 from rfl, List.range_succ]
    rw [show (4 : ℕ) = 3 + 1 from rfl, List.range_succ]
    rw [show (3 : ℕ) = 2 + 1 from rfl, List.range_succ]
    rw [show (2 : ℕ) = 1 + 1 from rfl, List.range_succ]
    rw [show (1 : ℕ) = 0 + 1 from rfl, List.range_succ, List.range_zero]
    simp only [List.nil_append, List.cons_append, List.map_cons, List.map_nil]
    norm_num [ygl.tap_at, c1, s22, ygl.kernelW, abs_of_pos, abs_of_neg, abs_of_nonneg]
  have sum1 : ygl.sumW (ygl.raw_taps ygl.resize_filter.mitchell 2 2 1) = 1 := by
    rw [raw1]
    norm_num [ygl.sumW]
  show (ygl.norm_taps ygl.resize_filter.mitchell 2 2 1).map _ = _
  rw [ygl.norm_taps_eq_raw _ _ _ _ sum1, raw1]
  simp only [List.map_cons, List.map_nil, ygl.resolve_edge]
  norm_num

theorem ygl.mitchell_tblv :
    ygl.weight_table ygl.resize_filter.mitchell ygl.resize_edge.clamp 1 1 0 =
      [(0, 0), (0, 1/18), (0, 8/9), (0, 1/18), (0, 0)] := by
  have c0 : ygl.sample_center 1 1 0 = 0 := by norm_num [ygl.sample_center]
  have s11 : ygl.filter_scale 1 1 = 1 := by norm_num [ygl.filter_scale]
  have lo0 : ygl.tap_lo ygl.resize_filter.mitchell 1 1 0 = -2 := by
    rw [ygl.tap_lo, c0, s11]
    rw [show (0 : ℚ) - ygl.radius ygl.resize_filter.mitchell * 1 = ((-2 : ℤ) : ℚ) from by
      norm_num [ygl.radius]]
    exact Int.ceil_intCast _
  have hi0 : ygl.tap_hi ygl.resize_filter.mitchell 1 1 0 = 2 := by
    rw [ygl.tap_hi, c0, s11]
    rw [show (0 : ℚ) + ygl.radius ygl.resize_filter.mitchell * 1 = ((2 : ℤ) : ℚ) from by
      norm_num [ygl.radius]]
    exact Int.floor_intCast _
  have raw0 : ygl.raw_taps ygl.resize_filter.mitchell 1 1 0 =
      [(-2, 0), (-1, 1/18), (0, 8/9), (1, 1/18), (2, 0)] := by
    unfold ygl.raw_taps
    rw [lo0, hi0, show ((2 : ℤ) + 1 - (-2)).toNat = 5 from by decide]
    rw [show (5 : ℕ) = 4 + 1 from rfl, List.range_succ]
    rw [show (4 : ℕ) = 3 + 1 from rfl, List.range_succ]
    rw [show (3 : ℕ) = 2 + 1 from rfl, List.range_succ]
    rw [show (2 : ℕ) = 1 + 1 from rfl, List.range_succ]
    rw [show (1 : ℕ) = 0 + 1 from rfl, List.range_succ, List.range_zero]
    simp only [List.nil_append, List.cons_append, List.map_cons, List.map_nil]
    norm_num [ygl.tap_at, c0, s11, ygl.kernelW, abs_of_pos, abs_of_neg, abs_of_nonneg]
  have sum0 : ygl.sumW (ygl.raw_taps ygl.resize_filter.mitchell 1 1 0) = 1 := by
    rw [raw0]
    norm_num [ygl.sumW]
  show (ygl.norm_taps ygl.resize_filter.mitchell 1 1 0).map _ = _
  rw [ygl.norm_taps_eq_raw _ _ _ _ sum0, raw0]
  simp only [List.map_cons, List.map_nil, ygl.resolve_edge]
  norm_num

/-- Concrete evaluation: same-size Mitchell resize of a 2x1 image blurs the
pixels. -/
theorem ygl.mitchell_blur :
    ygl.resize_image 2 1 [⟨0,0,0,1⟩, ⟨18,18,18,1⟩] 2 1 ygl.resize_filter.mitchell
        ygl.resize_edge.clamp true =
      Except.ok [⟨1,1,1,1⟩, ⟨17,17,17,1⟩] := by
  unfold ygl.resize_image
  rw [if_neg (by norm_num), if_neg (by norm_num), if_neg (by norm_num)]
  rw [if_pos rfl]
  have hh : ygl.hpass ygl.resize_filter.mitchell ygl.resize_edge.clamp 2 2 1
      [⟨0,0,0,1⟩, ⟨18,18,18,1⟩] = [⟨1,1,1,1⟩, ⟨17,17,17,1⟩] := by
    unfold ygl.hpass
    rw [show (1 * 2 : ℕ) = 0 + 1 + 1 from rfl, List.range_succ, List.range_succ,
      List.range_zero]
    simp only [List.nil_append, List.cons_append, List.map_cons, List.map_nil]
    norm_num
    rw [ygl.mitchell_tbl0, ygl.mitchell_tbl1]
    constructor
    · apply ygl.vec4f_ext <;>
        norm_num [ygl.applyTaps, ygl.vadd, ygl.vsmul, ygl.vzero, List.getD]
    · apply ygl.vec4f_ext <;>
        norm_num [ygl.applyTaps, ygl.vadd, ygl.vsmul, ygl.vzero, List.getD]
  rw [show ((2 : ℤ)).toNat = 2 from rfl, show ((1 : ℤ)).toNat = 1 from rfl, hh]
  have hv : ygl.vpass ygl.resize_filter.mitchell ygl.resize_edge.clamp 1 1 2
      [⟨1,1,1,1⟩, ⟨17,17,17,1⟩] = [⟨1,1,1,1⟩, ⟨17,17,17,1⟩] := by
    unfold ygl.vpass
    rw [show (1 * 2 : ℕ) = 0 + 1 + 1 from rfl, List.range_succ, List.range_succ,
      List.range_zero]
    simp only [List.nil_append, List.cons_append, List.map_cons, List.map_nil]
    norm_num
    rw [ygl.mitchell_tblv]
    constructor
    · apply ygl.vec4f_ext <;>
        norm_num [ygl.applyTaps, ygl.vadd, ygl.vsmul, ygl.vzero, List.getD]
    · apply ygl.vec4f_ext <;>
        norm_num [ygl.applyTaps, ygl.vadd, ygl.vsmul, ygl.vzero, List.getD]
  rw [hv]

/-- Concrete evaluation: with premultiplied_alpha = false, a zero-alpha pixel
loses its color channels through premultiply/unpremultiply. -/
theorem ygl.alpha_zero_loss :
    ygl.resize_image 1 1 [⟨1,1,1,0⟩] 1 1 ygl.resize_filter.triangle
        ygl.resize_edge.clamp false =
      Except.ok [⟨0,0,0,0⟩] := by
  unfold ygl.resize_image
  rw [if_neg (by norm_num), if_neg (by norm_num), if_neg (by norm_num)]
  simp only [Bool.false_eq_true, if_false]
  rw [show ([(⟨1,1,1,0⟩ : ygl.vec4f)].map ygl.premult) = [⟨0,0,0,0⟩] from by
    norm_num [ygl.premult]]
  rw [show ((1 : ℤ)).toNat = 1 from rfl]
  rw [ygl.hpass_id ygl.resize_filter.triangle (Or.inr (Or.inr (Or.inl rfl))) 1 1
    (by norm_num) _ (by norm_num)]
  rw [ygl.vpass_id ygl.resize_filter.triangle (Or.inr (Or.inr (Or.inl rfl))) 1 1
    (by norm_num) (by norm_num) _ (by norm_num)]
  norm_num [ygl.unpremult]

/-- C1 counterexample: same-size resize is NOT always the identity. With the
cubic_spline kernel the 2x1 image [(0,0,0,1),(6,6,6,1)] blurs to
[(1,1,1,1),(5,5,5,1)]; with mitchell, [(0,0,0,1),(18,18,18,1)] blurs to
[(1,1,1,1),(17,17,17,1)]; and with premultiplied_alpha = false a zero-alpha
pixel (1,1,1,0) comes back as (0,0,0,0), losing its color. -/
theorem C1_resize_identity_counterexample :
    (ygl.resize_image 2 1 [⟨0,0,0,1⟩, ⟨6,6,6,1⟩] 2 1 ygl.resize_filter.cubic_spline
        ygl.resize_edge.clamp true ≠ Except.ok [⟨0,0,0,1⟩, ⟨6,6,6,1⟩]) ∧
    (ygl.resize_image 2 1 [⟨0,0,0,1⟩, ⟨18,18,18,1⟩] 2 1 ygl.resize_filter.mitchell
        ygl.resize_edge.clamp true ≠ Except.ok [⟨0,0,0,1⟩, ⟨18,18,18,1⟩]) ∧
    (ygl.resize_image 1 1 [⟨1,1,1,0⟩] 1 1 ygl.resize_filter.triangle
        ygl.resize_edge.clamp false ≠ Except.ok [⟨1,1,1,0⟩]) := by
  refine ⟨?_, ?_, ?_⟩
  · rw [ygl.spline_blur]
    intro hcontra
    simp only [Except.ok.injEq, List.cons.injEq, ygl.vec4f.mk.injEq] at hcontra
    norm_num at hcontra
  · rw [ygl.mitchell_blur]
    intro hcontra
    simp only [Except.ok.injEq, List.cons.injEq, ygl.vec4f.mk.injEq] at hcontra
    norm_num at hcontra
  · rw [ygl.alpha_zero_loss]
    intro hcontra
    simp only [Except.ok.injEq, List.cons.injEq, ygl.vec4f.mk.injEq] at hcontra
    norm_num at hcontra

/-- C1 witness: concrete identity resize of a 2x1 image with the triangle
kernel, clamp edge and premultiplied alpha. -/
theorem C1_resize_identity_amended_witness :
    ygl.resize_image 2 1 [⟨1,2,3,1⟩, ⟨4,5,6,1⟩] 2 1 ygl.resize_filter.triangle
        ygl.resize_edge.clamp true = Except.ok [⟨1,2,3,1⟩, ⟨4,5,6,1⟩] :=
  C1_resize_identity_amended 2 1 _ ygl.resize_filter.triangle true (by norm_num)
    (by norm_num) (by norm_num) (Or.inr (Or.inr (Or.inl rfl))) (Or.inl rfl)
